import Mathlib

/-!
# Verification of the just-talk hotkey activation engine

Shallow embedding of the two hotkey listeners of the repository
(`src/hotkey/listener.py`, the pynput-based listener, and
`src/hotkey/listener_macos.py`, the Quartz-based listener), together with
proofs about their combo-matching, release-guard, snippet, mouse and error
handling behaviour.

Python sets are modelled as `Finset String`; the `_active_combos`
dictionary only ever stores `True` values and is queried by key membership
only, so it is modelled as the `Finset String` of its keys.  Configuration
dictionaries (`keyboard_hotkeys`, `text_snippets`, `mouse_hotkeys`) are
modelled as association lists iterated in order, mirroring Python dict
iteration; dict key uniqueness appears as `Nodup` hypotheses where needed.
-/

namespace JustTalk

/-- Signal edge carried by `hotkey_pressed` / `mouse_button_event`
("press" / "release" / "toggle" strings in the source). -/
inductive Action
  | press
  | release
  | toggle
deriving DecidableEq

/-- One emitted output of a listener: the Qt signals `hotkey_pressed`,
`mouse_button_event`, `snippet_triggered`, `listener_error`, plus
`logError` for the macOS listener's `LOG.error` call (the macOS event
callback reports per-event exceptions to the logger, not to a signal). -/
inductive Signal
  | hotkey (id : String) (act : Action)
  | mouse (id : String) (act : Action)
  | snippet (id : String) (text : String)
  | error (msg : String)
  | logError (msg : String)
deriving DecidableEq

/-- A keyboard hotkey definition.  Field shapes follow their use in the
listeners: `keys` is a list of canonical key names (`set(config.keys)` is
taken for matching), `mode` is a string compared against `"hold"`, and
`enabled` is a boolean. -/
structure HotkeyConfig where
  keys : List String
  mode : String
  enabled : Bool
deriving DecidableEq

/-- A text snippet definition: key list, payload text, enabled flag. -/
structure SnippetConfig where
  keys : List String
  text : String
  enabled : Bool
deriving DecidableEq

/-- A mouse hotkey definition: button name, mode string, enabled flag. -/
structure MouseConfig where
  button : String
  mode : String
  enabled : Bool
deriving DecidableEq

/-- The configuration consumed by both listeners
(`GlobalHotkeySettings` in `hotkey/config.py`): three id-keyed mappings,
modelled as association lists in dict iteration order. -/
structure GlobalHotkeySettings where
  keyboard_hotkeys : List (String × HotkeyConfig)
  text_snippets : List (String × SnippetConfig)
  mouse_hotkeys : List (String × MouseConfig)

/-- Mutable state of the pynput listener: `_pressed_keys` and the key set
of `_active_combos` (`listener.py` lines 33-34). -/
structure EngineState where
  pressed_keys : Finset String
  active_combos : Finset String
deriving DecidableEq

/-- `HotkeyListenerThread._modifier_keys` (`listener.py` lines 150-161). -/
def modifier_keys : Finset String :=
  {"ctrl", "right_ctrl", "super", "right_super",
   "alt", "right_alt", "shift", "right_shift"}

/-- The keyboard-hotkey loop of `_on_key_press` (`listener.py` lines
170-185): for each enabled definition whose key set is a subset of the
pressed set and whose id is not yet active, mark it active and emit
"press" (hold mode) or "toggle" (any other mode). -/
def hotkeyDownScan :
    List (String × HotkeyConfig) → Finset String → Finset String →
    Finset String × List Signal
  | [], _, active => (active, [])
  | (hotkey_id, config) :: rest, pressed, active =>
    if config.enabled = true ∧ config.keys.toFinset ⊆ pressed ∧
        hotkey_id ∉ active then
      let res := hotkeyDownScan rest pressed (insert hotkey_id active)
      (res.1,
       Signal.hotkey hotkey_id
         (if config.mode = "hold" then Action.press else Action.toggle)
         :: res.2)
    else
      hotkeyDownScan rest pressed active

/-- The snippet loop of `_on_key_press` (`listener.py` lines 188-199):
an enabled snippet fires when its key set equals the pressed set exactly
and its `"snippet:" + id` marker is not active. -/
def snippetDownScan :
    List (String × SnippetConfig) → Finset String → Finset String →
    Finset String × List Signal
  | [], _, active => (active, [])
  | (snip_id, snip_config) :: rest, pressed, active =>
    if snip_config.enabled = true ∧ snip_config.keys.toFinset = pressed ∧
        ("snippet:" ++ snip_id) ∉ active then
      let res := snippetDownScan rest pressed (insert ("snippet:" ++ snip_id) active)
      (res.1, Signal.snippet snip_id snip_config.text :: res.2)
    else
      snippetDownScan rest pressed active

/-- `_on_key_press` (`listener.py` lines 163-199), after normalization:
add the key to the pressed set, then run the hotkey scan and the snippet
scan on the updated set. -/
def on_key_press (cfg : GlobalHotkeySettings) (key_name : String)
    (s : EngineState) : EngineState × List Signal :=
  let pressed := insert key_name s.pressed_keys
  let hk := hotkeyDownScan cfg.keyboard_hotkeys pressed s.active_combos
  let sn := snippetDownScan cfg.text_snippets pressed hk.1
  (⟨pressed, sn.1⟩, hk.2 ++ sn.2)

/-- `non_modifier_keys` as computed inside `_on_key_release`
(`listener.py` line 214): the keys of the definition that are not pure
modifiers. -/
def non_modifier_keys (config : HotkeyConfig) : List String :=
  config.keys.filter (fun k => decide (k ∉ modifier_keys))

/-- The deactivation condition of one iteration of the release loop of
`_on_key_release` (`listener.py` lines 212-222), for an id already in
`active_combos`: the released key belongs to the definition, and in hold
mode either the definition is all-modifier, or the released key is a
non-modifier key and no non-modifier key of the definition remains in
`pressed − {key_name}`. -/
def relFire (config : HotkeyConfig) (key_name : String)
    (pressed : Finset String) : Prop :=
  key_name ∈ config.keys ∧
  (config.mode = "hold" →
    (non_modifier_keys config = [] ∨
     (key_name ∈ non_modifier_keys config ∧
      ¬ ((pressed.erase key_name) ∩ (non_modifier_keys config).toFinset).Nonempty)))

instance (config : HotkeyConfig) (key_name : String) (pressed : Finset String) :
    Decidable (relFire config key_name pressed) := by
  unfold relFire; infer_instance

/-- The keyboard-hotkey loop of `_on_key_release` (`listener.py` lines
211-228).  For an active id whose keys contain the released key: in hold
mode with a non-empty non-modifier subset, only a release of a
non-modifier key that leaves no non-modifier key of the combo pressed
deactivates (a pure-modifier release is skipped, and so is a non-modifier
release while another non-modifier key of the combo remains pressed);
otherwise the id is deactivated, emitting "release" in hold mode only. -/
def hotkeyReleaseScan :
    List (String × HotkeyConfig) → String → Finset String → Finset String →
    Finset String × List Signal
  | [], _, _, active => (active, [])
  | (hotkey_id, config) :: rest, key_name, pressed, active =>
    if hotkey_id ∈ active ∧ key_name ∈ config.keys then
      if config.mode = "hold" then
        if non_modifier_keys config = [] then
          let res := hotkeyReleaseScan rest key_name pressed (active.erase hotkey_id)
          (res.1, Signal.hotkey hotkey_id Action.release :: res.2)
        else if key_name ∉ non_modifier_keys config then
          hotkeyReleaseScan rest key_name pressed active
        else if ((pressed.erase key_name) ∩ (non_modifier_keys config).toFinset).Nonempty then
          hotkeyReleaseScan rest key_name pressed active
        else
          let res := hotkeyReleaseScan rest key_name pressed (active.erase hotkey_id)
          (res.1, Signal.hotkey hotkey_id Action.release :: res.2)
      else
        hotkeyReleaseScan rest key_name pressed (active.erase hotkey_id)
    else
      hotkeyReleaseScan rest key_name pressed active

/-- The snippet cleanup loop of `_on_key_release` (`listener.py` lines
231-234): drop the `"snippet:" + id` marker when a key of the snippet is
released.  No signal is emitted. -/
def snippetReleaseScan :
    List (String × SnippetConfig) → String → Finset String → Finset String
  | [], _, active => active
  | (snip_id, snip_config) :: rest, key_name, active =>
    if ("snippet:" ++ snip_id) ∈ active ∧ key_name ∈ snip_config.keys then
      snippetReleaseScan rest key_name (active.erase ("snippet:" ++ snip_id))
    else
      snippetReleaseScan rest key_name active

/-- `_on_key_release` (`listener.py` lines 204-236): run the release
guard and the snippet cleanup against the pre-removal pressed set, and
only then discard the released key from the pressed set (line 236). -/
def on_key_release (cfg : GlobalHotkeySettings) (key_name : String)
    (s : EngineState) : EngineState × List Signal :=
  let hk := hotkeyReleaseScan cfg.keyboard_hotkeys key_name s.pressed_keys s.active_combos
  let a2 := snippetReleaseScan cfg.text_snippets key_name hk.1
  (⟨s.pressed_keys.erase key_name, a2⟩, hk.2)

/-- The mouse-definition loop of `_on_mouse_click` (`listener.py` lines
253-267): for enabled definitions bound to `"middle"`, a press emits
"press" (hold) or "toggle" (other), a release emits "release" in hold
mode only. -/
def mouseScan : List (String × MouseConfig) → Bool → List Signal
  | [], _ => []
  | (mb_id, config) :: rest, pressed =>
    (if config.enabled = true ∧ config.button = "middle" then
      if pressed then
        [Signal.mouse mb_id
          (if config.mode = "hold" then Action.press else Action.toggle)]
      else if config.mode = "hold" then
        [Signal.mouse mb_id Action.release]
      else []
    else []) ++ mouseScan rest pressed

/-- `_on_mouse_click` (`listener.py` lines 241-267): every button other
than the middle one returns immediately; the state is never touched. -/
def on_mouse_click (cfg : GlobalHotkeySettings) (button : String)
    (pressed : Bool) : List Signal :=
  if button ≠ "middle" then [] else mouseScan cfg.mouse_hotkeys pressed

/-- A normalized event fed to the pynput listener.  `badKeyDown` /
`badKeyUp` are modelled from the spec: they stand for an event whose
handling raises (spec §7 "ProcessingError", e.g. a key name failed to
normalize); the `try`/`except` wrappers of `_on_key_press` and
`_on_key_release` (`listener.py` lines 165/201-202 and 206/238-239) map
such an event to a `listener_error` emission. -/
inductive PEvent
  | keyDown (key_name : String)
  | keyUp (key_name : String)
  | mouseClick (button : String) (pressed : Bool)
  | badKeyDown (msg : String)
  | badKeyUp (msg : String)
deriving DecidableEq

/-- One event step of the pynput listener. -/
def step (cfg : GlobalHotkeySettings) :
    PEvent → EngineState → EngineState × List Signal
  | PEvent.keyDown k, s => on_key_press cfg k s
  | PEvent.keyUp k, s => on_key_release cfg k s
  | PEvent.mouseClick b p, s => (s, on_mouse_click cfg b p)
  | PEvent.badKeyDown m, s => (s, [Signal.error ("按键处理错误: " ++ m)])
  | PEvent.badKeyUp m, s => (s, [Signal.error ("按键释放处理错误: " ++ m)])

/-- Process a list of events in order, concatenating the emitted signals. -/
def run (cfg : GlobalHotkeySettings) :
    List PEvent → EngineState → EngineState × List Signal
  | [], s => (s, [])
  | e :: es, s =>
    let r := step cfg e s
    let rs := run cfg es r.1
    (rs.1, r.2 ++ rs.2)

/-- Number of `hotkey` signals carrying the given id. -/
def countHK (sigs : List Signal) (i : String) : Nat :=
  sigs.countP (fun sg => match sg with
    | Signal.hotkey j _ => j == i
    | _ => false)

/-- Number of `hotkey` signals carrying the given id with edge
`release`. -/
def countRel (sigs : List Signal) (i : String) : Nat :=
  sigs.countP (fun sg => match sg with
    | Signal.hotkey j a => j == i && a == Action.release
    | _ => false)

/-- Number of `snippet` signals carrying the given id. -/
def countSnip (sigs : List Signal) (i : String) : Nat :=
  sigs.countP (fun sg => match sg with
    | Signal.snippet j _ => j == i
    | _ => false)

/-- Number of `snippet` signals of any id. -/
def countSnipAll (sigs : List Signal) : Nat :=
  sigs.countP (fun sg => match sg with
    | Signal.snippet _ _ => true
    | _ => false)

/-- Number of `mouse` signals carrying the given id. -/
def countMouse (sigs : List Signal) (i : String) : Nat :=
  sigs.countP (fun sg => match sg with
    | Signal.mouse j _ => j == i
    | _ => false)

/-- Number of `error` signals. -/
def countErr (sigs : List Signal) : Nat :=
  sigs.countP (fun sg => match sg with
    | Signal.error _ => true
    | _ => false)

/-- Initial listener state: both sets empty. -/
def initState : EngineState := ⟨∅, ∅⟩

namespace MacOS

/-- Mutable state of the macOS listener: `pressed_keys`, the key set of
`active_combos`, and `last_modifiers` (`listener_macos.py` lines
132-135). -/
structure MacState where
  pressed_keys : Finset String
  active_combos : Finset String
  last_modifiers : Finset String
deriving DecidableEq

/-- `_convert_keys_to_macos` (`listener_macos.py` lines 87-99):
`ctrl ↦ control`, `super ↦ command`, `alt ↦ option`, `shift ↦ shift`,
anything else unchanged, collected into a set. -/
def convert_keys_to_macos (keys : List String) : Finset String :=
  (keys.map (fun k =>
    if k = "ctrl" then "control"
    else if k = "super" then "command"
    else if k = "alt" then "option"
    else if k = "shift" then "shift"
    else k)).toFinset

/-- The keycode table of `keycode_to_name` (`listener_macos.py` lines
155-165). -/
def keycode_map : List (Nat × String) :=
  [(0, "a"), (1, "s"), (2, "d"), (3, "f"), (4, "h"), (5, "g"), (6, "z"),
   (7, "x"), (8, "c"), (9, "v"), (11, "b"), (12, "q"), (13, "w"),
   (14, "e"), (15, "r"), (16, "y"), (17, "t"), (18, "1"), (19, "2"),
   (20, "3"), (21, "4"), (22, "6"), (23, "5"), (24, "="), (25, "9"),
   (26, "7"), (27, "-"), (28, "8"), (29, "0"), (31, "o"), (32, "u"),
   (34, "i"), (35, "p"), (37, "l"), (38, "j"), (40, "k"), (45, "n"),
   (46, "m"), (36, "enter"), (48, "tab"), (49, "space"),
   (51, "backspace"), (53, "esc"), (122, "f1"), (120, "f2"), (99, "f3"),
   (118, "f4"), (96, "f5"), (97, "f6"), (98, "f7"), (100, "f8"),
   (101, "f9"), (109, "f10"), (103, "f11"), (111, "f12")]

/-- `keycode_to_name` (`listener_macos.py` lines 153-166):
`keycode_map.get(keycode)`. -/
def keycode_to_name (keycode : Nat) : Option String :=
  keycode_map.lookup keycode

/-- The keyboard-hotkey loop of `check_hotkeys` (`listener_macos.py`
lines 170-185): like the pynput press scan, but matching the converted
key set against `all_pressed`. -/
def macHotkeyScan :
    List (String × HotkeyConfig) → Finset String → Finset String →
    Finset String × List Signal
  | [], _, active => (active, [])
  | (hotkey_id, config) :: rest, all_pressed, active =>
    if config.enabled = true ∧
        convert_keys_to_macos config.keys ⊆ all_pressed ∧
        hotkey_id ∉ active then
      let res := macHotkeyScan rest all_pressed (insert hotkey_id active)
      (res.1,
       Signal.hotkey hotkey_id
         (if config.mode = "hold" then Action.press else Action.toggle)
         :: res.2)
    else
      macHotkeyScan rest all_pressed active

/-- The snippet loop of `check_hotkeys` (`listener_macos.py` lines
188-198): exact equality of the converted key set with `all_pressed`. -/
def macSnippetScan :
    List (String × SnippetConfig) → Finset String → Finset String →
    Finset String × List Signal
  | [], _, active => (active, [])
  | (snip_id, snip_config) :: rest, all_pressed, active =>
    if snip_config.enabled = true ∧
        convert_keys_to_macos snip_config.keys = all_pressed ∧
        ("snippet:" ++ snip_id) ∉ active then
      let res := macSnippetScan rest all_pressed (insert ("snippet:" ++ snip_id) active)
      (res.1, Signal.snippet snip_id snip_config.text :: res.2)
    else
      macSnippetScan rest all_pressed active

/-- `check_hotkeys` (`listener_macos.py` lines 168-198): hotkey scan,
then snippet scan, both against `all_pressed`. -/
def check_hotkeys (cfg : GlobalHotkeySettings) (all_pressed : Finset String)
    (active : Finset String) : Finset String × List Signal :=
  let hk := macHotkeyScan cfg.keyboard_hotkeys all_pressed active
  let sn := macSnippetScan cfg.text_snippets all_pressed hk.1
  (sn.1, hk.2 ++ sn.2)

/-- The keyboard part of `check_releases` (`listener_macos.py` lines
204-216): an active id whose converted key set meets the released set is
scheduled for removal, emitting "release" in hold mode.  There is no
modifier guard in this variant. -/
def macReleaseScan :
    List (String × HotkeyConfig) → Finset String → Finset String →
    List String × List Signal
  | [], _, _ => ([], [])
  | (hotkey_id, config) :: rest, released, active =>
    let res := macReleaseScan rest released active
    if hotkey_id ∈ active ∧
        (released ∩ convert_keys_to_macos config.keys).Nonempty then
      (hotkey_id :: res.1,
       (if config.mode = "hold" then [Signal.hotkey hotkey_id Action.release]
        else []) ++ res.2)
    else
      res

/-- Whether an active-combo entry is removed by the snippet part of
`check_releases` (`listener_macos.py` lines 219-226): it starts with
`"snippet:"`, its id resolves in `text_snippets`, and the released set
meets the snippet's converted key set. -/
def macSnippetReleasePred (cfg : GlobalHotkeySettings)
    (released : Finset String) (id : String) : Bool :=
  decide (id.take 8 = "snippet:") &&
    (match cfg.text_snippets.lookup (id.drop 8) with
     | some snip_config =>
       decide (released ∩ convert_keys_to_macos snip_config.keys).Nonempty
     | none => false)

/-- `check_releases` (`listener_macos.py` lines 200-230): collect the
hotkey removals and signals, the snippet removals, then delete all
collected ids from `active_combos`.  The `current` argument is unused in
the source body and kept here for fidelity. -/
def check_releases (cfg : GlobalHotkeySettings) (released : Finset String)
    (current : Finset String) (active : Finset String) :
    Finset String × List Signal :=
  let hk := macReleaseScan cfg.keyboard_hotkeys released active
  let snipRem := active.filter (fun i => macSnippetReleasePred cfg released i = true)
  let _ := current
  (active \ (hk.1.toFinset ∪ snipRem), hk.2)

/-- The mouse-down loop of `event_callback` (`listener_macos.py` lines
288-294). -/
def macMouseDownScan : List (String × MouseConfig) → List Signal
  | [] => []
  | (mb_id, config) :: rest =>
    (if config.enabled = true ∧ config.button = "middle" then
      [Signal.mouse mb_id
        (if config.mode = "hold" then Action.press else Action.toggle)]
    else []) ++ macMouseDownScan rest

/-- The mouse-up loop of `event_callback` (`listener_macos.py` lines
301-304). -/
def macMouseUpScan : List (String × MouseConfig) → List Signal
  | [] => []
  | (mb_id, config) :: rest =>
    (if config.enabled = true ∧ config.button = "middle" ∧
        config.mode = "hold" then
      [Signal.mouse mb_id Action.release]
    else []) ++ macMouseUpScan rest

/-- The macOS modifier-name set cleared on a flags-changed event
(`listener_macos.py` line 251). -/
def macModifierNames : Finset String :=
  {"control", "command", "option", "shift"}

/-- A normalized event fed to the macOS listener.  `flagsChanged` carries
the complete current modifier set (the result of `get_modifier_names` on
the event flags); key events carry the virtual keycode plus the modifier
set derived from the event flags.  `bad` is modelled from the spec: it
stands for an event whose handling raises (spec §7 "ProcessingError");
the `try`/`except` of `event_callback` (`listener_macos.py` lines
235/306-307) routes it to `LOG.error`, not to a signal. -/
inductive MacEvent
  | flagsChanged (modifiers : Finset String)
  | keyDown (keycode : Nat) (modifiers : Finset String)
  | keyUp (keycode : Nat) (modifiers : Finset String)
  | otherMouseDown (button : Nat)
  | otherMouseUp (button : Nat)
  | bad (msg : String)

/-- `event_callback` (`listener_macos.py` lines 232-309), one event. -/
def event_callback (cfg : GlobalHotkeySettings) :
    MacEvent → MacState → MacState × List Signal
  | MacEvent.flagsChanged current, s =>
    let newly := current \ s.last_modifiers
    let released := s.last_modifiers \ current
    let rel :=
      if released.Nonempty then
        check_releases cfg released current s.active_combos
      else (s.active_combos, [])
    let pressed1 := (s.pressed_keys \ macModifierNames) ∪ current
    let hk :=
      if newly.Nonempty then check_hotkeys cfg (pressed1 ∪ current) rel.1
      else (rel.1, [])
    (⟨pressed1, hk.1, current⟩, rel.2 ++ hk.2)
  | MacEvent.keyDown keycode mods, s =>
    match keycode_to_name keycode with
    | none => (s, [])
    | some key_name =>
      let pressed1 := insert key_name s.pressed_keys
      let hk := check_hotkeys cfg (pressed1 ∪ mods) s.active_combos
      (⟨pressed1, hk.1, s.last_modifiers⟩, hk.2)
  | MacEvent.keyUp keycode mods, s =>
    match keycode_to_name keycode with
    | none => (s, [])
    | some key_name =>
      let rel := check_releases cfg {key_name} mods s.active_combos
      (⟨s.pressed_keys.erase key_name, rel.1, s.last_modifiers⟩, rel.2)
  | MacEvent.otherMouseDown button, s =>
    (s, if button = 2 then macMouseDownScan cfg.mouse_hotkeys else [])
  | MacEvent.otherMouseUp button, s =>
    (s, if button = 2 then macMouseUpScan cfg.mouse_hotkeys else [])
  | MacEvent.bad m, s => (s, [Signal.logError ("Event callback error: " ++ m)])

/-- Process a list of macOS events in order. -/
def macRun (cfg : GlobalHotkeySettings) :
    List MacEvent → MacState → MacState × List Signal
  | [], s => (s, [])
  | e :: es, s =>
    let r := event_callback cfg e s
    let rs := macRun cfg es r.1
    (rs.1, r.2 ++ rs.2)

/-- Initial macOS listener state: all three sets empty. -/
def macInit : MacState := ⟨∅, ∅, ∅⟩

end MacOS

/-- Concrete configuration: one hold-mode definition `hk` with keys
`ctrl+shift+x`, used by the modifier-guard scenarios. -/
def cfgCSX : GlobalHotkeySettings :=
  ⟨[("hk", ⟨["ctrl", "shift", "x"], "hold", true⟩)], [], []⟩

/-- Concrete configuration: one toggle-mode definition `tg` with keys
`ctrl+t`. -/
def cfgToggle : GlobalHotkeySettings :=
  ⟨[("tg", ⟨["ctrl", "t"], "toggle", true⟩)], [], []⟩

/-- Concrete configuration: one snippet `sn` with keys `a+b` and text
`"hello"`. -/
def cfgSnip : GlobalHotkeySettings :=
  ⟨[], [("sn", ⟨["a", "b"], "hello", true⟩)], []⟩

/-- Concrete configuration: one hold-mode middle-button definition `mb`
and one toggle-mode middle-button definition `mt`. -/
def cfgMouse : GlobalHotkeySettings :=
  ⟨[], [], [("mb", ⟨"middle", "hold", true⟩), ("mt", ⟨"middle", "toggle", true⟩)]⟩

/-- Concrete configuration: the `hk` definition of `cfgCSX` with its
`enabled` flag cleared. -/
def cfgCSXoff : GlobalHotkeySettings :=
  ⟨[("hk", ⟨["ctrl", "shift", "x"], "hold", false⟩)], [], []⟩

end JustTalk

namespace JustTalk

/-- Two bindings of the same id in an association list with `Nodup` keys
carry equal values. -/
theorem assoc_nodup_eq {β : Type} {l : List (String × β)} {i : String}
    {c c' : β} (hnd : (l.map Prod.fst).Nodup)
    (h1 : (i, c) ∈ l) (h2 : (i, c') ∈ l) : c = c' := by
  induction l with
  | nil => cases h1
  | cons p rest ih =>
    obtain ⟨j, b⟩ := p
    simp only [List.map_cons, List.nodup_cons] at hnd
    rcases List.mem_cons.1 h1 with he1 | hm1 <;>
      rcases List.mem_cons.1 h2 with he2 | hm2
    · injection he1 with h1a h1b
      injection he2 with h2a h2b
      exact h1b.trans h2b.symm
    · injection he1 with h1a h1b
      have hi : i ∈ List.map Prod.fst rest := by
        simpa using List.mem_map_of_mem Prod.fst hm2
      exact absurd (h1a ▸ hi) hnd.1
    · injection he2 with h2a h2b
      have hi : i ∈ List.map Prod.fst rest := by
        simpa using List.mem_map_of_mem Prod.fst hm1
      exact absurd (h2a ▸ hi) hnd.1
    · exact ih hnd.2 hm1 hm2

/-- `countHK` distributes over list append. -/
theorem countHK_append (a b : List Signal) (i : String) :
    countHK (a ++ b) i = countHK a i + countHK b i := by
  simp [countHK, List.countP_append]

/-- Prefixing with `"snippet:"` is injective. -/
theorem snipkey_inj {a b : String} (h : "snippet:" ++ a = "snippet:" ++ b) :
    a = b := by
  have hd := congrArg String.data h
  simp only [String.data_append] at hd
  exact String.ext (List.append_cancel_left hd)

theorem hotkeyDownScan_active_mono (hks : List (String × HotkeyConfig))
    (pressed active : Finset String) :
    active ⊆ (hotkeyDownScan hks pressed active).1 := by
  induction hks generalizing active with
  | nil => simp [hotkeyDownScan]
  | cons p rest ih =>
    obtain ⟨j, c⟩ := p
    simp only [hotkeyDownScan]
    split
    · exact (Finset.subset_insert j active).trans (ih (insert j active))
    · exact ih active

theorem hotkeyDownScan_mem_notin {hks : List (String × HotkeyConfig)}
    {i : String} (h : i ∉ hks.map Prod.fst)
    (pressed active : Finset String) :
    (i ∈ (hotkeyDownScan hks pressed active).1 ↔ i ∈ active) := by
  induction hks generalizing active with
  | nil => simp [hotkeyDownScan]
  | cons p rest ih =>
    obtain ⟨j, c⟩ := p
    simp only [List.map_cons, List.mem_cons, not_or] at h
    simp only [hotkeyDownScan]
    split
    · rw [ih h.2 (insert j active)]
      simp [Finset.mem_insert, h.1]
    · exact ih h.2 active

theorem hotkeyDownScan_mem {hks : List (String × HotkeyConfig)}
    {i : String} {c : HotkeyConfig}
    (hnd : (hks.map Prod.fst).Nodup) (hm : (i, c) ∈ hks)
    (pressed active : Finset String) :
    (i ∈ (hotkeyDownScan hks pressed active).1 ↔
      i ∈ active ∨ (c.enabled = true ∧ c.keys.toFinset ⊆ pressed)) := by
  induction hks generalizing active with
  | nil => cases hm
  | cons p rest ih =>
    obtain ⟨j, c'⟩ := p
    simp only [List.map_cons, List.nodup_cons] at hnd
    rcases List.mem_cons.1 hm with he | hm'
    · cases he
      simp only [hotkeyDownScan]
      by_cases hcond : c.enabled = true ∧ c.keys.toFinset ⊆ pressed ∧ i ∉ active
      · rw [if_pos hcond]
        rw [hotkeyDownScan_mem_notin hnd.1]
        simp [Finset.mem_insert, hcond.1, hcond.2.1]
      · rw [if_neg hcond]
        rw [hotkeyDownScan_mem_notin hnd.1]
        by_cases ha : i ∈ active
        · simp [ha]
        · simp only [ha, false_or, false_iff]
          intro hcs
          exact hcond ⟨hcs.1, hcs.2, ha⟩
    · have hji : j ≠ i := fun h =>
        hnd.1 (h ▸ List.mem_map_of_mem Prod.fst hm')
      simp only [hotkeyDownScan]
      split
      · rw [ih hnd.2 hm' (insert j active)]
        simp [Finset.mem_insert, Ne.symm hji]
      · exact ih hnd.2 hm' active

theorem hotkeyDownScan_countHK_notin {hks : List (String × HotkeyConfig)}
    {i : String} (h : i ∉ hks.map Prod.fst)
    (pressed active : Finset String) :
    countHK (hotkeyDownScan hks pressed active).2 i = 0 := by
  induction hks generalizing active with
  | nil => simp [hotkeyDownScan, countHK]
  | cons p rest ih =>
    obtain ⟨j, c⟩ := p
    simp only [List.map_cons, List.mem_cons, not_or] at h
    have hji : j ≠ i := fun hh => h.1 hh.symm
    simp only [hotkeyDownScan]
    split
    · have hrec := ih h.2 (insert j active)
      simp only [countHK] at hrec ⊢
      simp [List.countP_cons, hrec, hji]
    · exact ih h.2 active

theorem hotkeyDownScan_countHK {hks : List (String × HotkeyConfig)}
    {i : String} {c : HotkeyConfig}
    (hnd : (hks.map Prod.fst).Nodup) (hm : (i, c) ∈ hks)
    (pressed active : Finset String) :
    countHK (hotkeyDownScan hks pressed active).2 i =
      if c.enabled = true ∧ c.keys.toFinset ⊆ pressed ∧ i ∉ active
      then 1 else 0 := by
  induction hks generalizing active with
  | nil => cases hm
  | cons p rest ih =>
    obtain ⟨j, c'⟩ := p
    simp only [List.map_cons, List.nodup_cons] at hnd
    rcases List.mem_cons.1 hm with he | hm'
    · cases he
      simp only [hotkeyDownScan]
      by_cases hcond : c.enabled = true ∧ c.keys.toFinset ⊆ pressed ∧ i ∉ active
      · rw [if_pos hcond, if_pos hcond]
        have hz := hotkeyDownScan_countHK_notin hnd.1 pressed (insert i active)
        simp only [countHK] at hz ⊢
        simp [List.countP_cons, hz]
      · rw [if_neg hcond, if_neg hcond]
        exact hotkeyDownScan_countHK_notin hnd.1 pressed active
    · have hji : j ≠ i := fun hh => by
        rw [hh] at hnd
        exact hnd.1 (by simpa using List.mem_map_of_mem Prod.fst hm')
      simp only [hotkeyDownScan]
      split
      · have hrec := ih hnd.2 hm' (insert j active)
        have hmemins : (i ∈ insert j active) ↔ (i ∈ active) := by
          simp [Finset.mem_insert, Ne.symm hji]
        simp only [countHK] at hrec ⊢
        rw [List.countP_cons]
        simp only [hmemins] at hrec
        simp [hrec, hji]
      · exact ih hnd.2 hm' active

theorem snippetDownScan_sig_shape {snips : List (String × SnippetConfig)}
    {pressed active : Finset String} {sg : Signal}
    (h : sg ∈ (snippetDownScan snips pressed active).2) :
    ∃ sid sc, (sid, sc) ∈ snips ∧ sg = Signal.snippet sid sc.text := by
  induction snips generalizing active with
  | nil => simp [snippetDownScan] at h
  | cons p rest ih =>
    obtain ⟨sid, sc⟩ := p
    simp only [snippetDownScan] at h
    split at h
    · rcases List.mem_cons.1 h with he | hm
      · exact ⟨sid, sc, List.mem_cons_self _ _, he⟩
      · obtain ⟨sid', sc', hmem, heq⟩ := ih hm
        exact ⟨sid', sc', List.mem_cons_of_mem _ hmem, heq⟩
    · obtain ⟨sid', sc', hmem, heq⟩ := ih h
      exact ⟨sid', sc', List.mem_cons_of_mem _ hmem, heq⟩

theorem snippetDownScan_countHK_zero (snips : List (String × SnippetConfig))
    (pressed active : Finset String) (i : String) :
    countHK (snippetDownScan snips pressed active).2 i = 0 := by
  induction snips generalizing active with
  | nil => simp [snippetDownScan, countHK]
  | cons p rest ih =>
    obtain ⟨sid, sc⟩ := p
    simp only [snippetDownScan]
    split
    · have hrec := ih (insert ("snippet:" ++ sid) active)
      simp only [countHK] at hrec ⊢
      simp [List.countP_cons, hrec]
    · exact ih active

theorem snippetDownScan_mem_pres {snips : List (String × SnippetConfig)}
    {i : String} (h : ∀ p ∈ snips, "snippet:" ++ p.1 ≠ i)
    (pressed active : Finset String) :
    (i ∈ (snippetDownScan snips pressed active).1 ↔ i ∈ active) := by
  induction snips generalizing active with
  | nil => simp [snippetDownScan]
  | cons p rest ih =>
    obtain ⟨sid, sc⟩ := p
    have hhead : "snippet:" ++ sid ≠ i := h (sid, sc) (List.mem_cons_self _ _)
    have htail : ∀ p ∈ rest, "snippet:" ++ p.1 ≠ i :=
      fun p hp => h p (List.mem_cons_of_mem _ hp)
    simp only [snippetDownScan]
    split
    · rw [ih htail (insert ("snippet:" ++ sid) active)]
      simp [Finset.mem_insert, Ne.symm hhead]
    · exact ih htail active

theorem snippetDownScan_snipkey_notin {snips : List (String × SnippetConfig)}
    {sid : String} (h : sid ∉ snips.map Prod.fst)
    (pressed active : Finset String) :
    (("snippet:" ++ sid) ∈ (snippetDownScan snips pressed active).1 ↔
      ("snippet:" ++ sid) ∈ active) := by
  induction snips generalizing active with
  | nil => simp [snippetDownScan]
  | cons p rest ih =>
    obtain ⟨sid', sc⟩ := p
    simp only [List.map_cons, List.mem_cons, not_or] at h
    have hne : ("snippet:" ++ sid') ≠ ("snippet:" ++ sid) :=
      fun hh => h.1 (snipkey_inj hh).symm
    simp only [snippetDownScan]
    split
    · rw [ih h.2 (insert ("snippet:" ++ sid') active)]
      simp [Finset.mem_insert, Ne.symm hne]
    · exact ih h.2 active

theorem snippetDownScan_countSnip_notin {snips : List (String × SnippetConfig)}
    {sid : String} (h : sid ∉ snips.map Prod.fst)
    (pressed active : Finset String) :
    countSnip (snippetDownScan snips pressed active).2 sid = 0 := by
  induction snips generalizing active with
  | nil => simp [snippetDownScan, countSnip]
  | cons p rest ih =>
    obtain ⟨sid', sc⟩ := p
    simp only [List.map_cons, List.mem_cons, not_or] at h
    have hne : sid' ≠ sid := fun hh => h.1 hh.symm
    simp only [snippetDownScan]
    split
    · have hrec := ih h.2 (insert ("snippet:" ++ sid') active)
      simp only [countSnip] at hrec ⊢
      simp [List.countP_cons, hrec, hne]
    · exact ih h.2 active

theorem snippetDownScan_countSnip {snips : List (String × SnippetConfig)}
    {sid : String} {sc : SnippetConfig}
    (hnd : (snips.map Prod.fst).Nodup) (hm : (sid, sc) ∈ snips)
    (pressed active : Finset String) :
    countSnip (snippetDownScan snips pressed active).2 sid =
      if sc.enabled = true ∧ sc.keys.toFinset = pressed ∧
          ("snippet:" ++ sid) ∉ active
      then 1 else 0 := by
  induction snips generalizing active with
  | nil => cases hm
  | cons p rest ih =>
    obtain ⟨sid', sc'⟩ := p
    simp only [List.map_cons, List.nodup_cons] at hnd
    rcases List.mem_cons.1 hm with he | hm'
    · cases he
      simp only [snippetDownScan]
      by_cases hcond : sc.enabled = true ∧ sc.keys.toFinset = pressed ∧
          ("snippet:" ++ sid) ∉ active
      · rw [if_pos hcond, if_pos hcond]
        have hz := snippetDownScan_countSnip_notin hnd.1 pressed
          (insert ("snippet:" ++ sid) active)
        simp only [countSnip] at hz ⊢
        simp [List.countP_cons, hz]
      · rw [if_neg hcond, if_neg hcond]
        exact snippetDownScan_countSnip_notin hnd.1 pressed active
    · have hne : sid' ≠ sid := fun hh => by
        rw [hh] at hnd
        exact hnd.1 (by simpa using List.mem_map_of_mem Prod.fst hm')
      have hkey : ("snippet:" ++ sid') ≠ ("snippet:" ++ sid) :=
        fun hh => hne (snipkey_inj hh)
      simp only [snippetDownScan]
      split
      · have hrec := ih hnd.2 hm' (insert ("snippet:" ++ sid') active)
        have hmemins : (("snippet:" ++ sid) ∈ insert ("snippet:" ++ sid') active) ↔
            (("snippet:" ++ sid) ∈ active) := by
          simp [Finset.mem_insert, Ne.symm hkey]
        simp only [countSnip] at hrec ⊢
        rw [List.countP_cons]
        simp only [hmemins] at hrec
        simp [hrec, hne]
      · exact ih hnd.2 hm' active

theorem hotkeyReleaseScan_mem_notin {hks : List (String × HotkeyConfig)}
    {i : String} (h : i ∉ hks.map Prod.fst)
    (key_name : String) (pressed active : Finset String) :
    (i ∈ (hotkeyReleaseScan hks key_name pressed active).1 ↔ i ∈ active) := by
  induction hks generalizing active with
  | nil => simp [hotkeyReleaseScan]
  | cons p rest ih =>
    obtain ⟨j, c⟩ := p
    simp only [List.map_cons, List.mem_cons, not_or] at h
    have hji : i ≠ j := h.1
    have herase : ∀ a : Finset String, (i ∈ a.erase j ↔ i ∈ a) :=
      fun a => by simp [Finset.mem_erase, hji]
    simp only [hotkeyReleaseScan]
    repeat' split
    all_goals (try dsimp only)
    all_goals rw [ih h.2]
    all_goals simp [herase]

theorem hotkeyReleaseScan_mem {hks : List (String × HotkeyConfig)}
    {i : String} {c : HotkeyConfig}
    (hnd : (hks.map Prod.fst).Nodup) (hm : (i, c) ∈ hks)
    (key_name : String) (pressed active : Finset String) :
    (i ∈ (hotkeyReleaseScan hks key_name pressed active).1 ↔
      i ∈ active ∧ ¬ relFire c key_name pressed) := by
  induction hks generalizing active with
  | nil => cases hm
  | cons p rest ih =>
    obtain ⟨j, c'⟩ := p
    simp only [List.map_cons, List.nodup_cons] at hnd
    rcases List.mem_cons.1 hm with he | hm'
    · cases he
      simp only [hotkeyReleaseScan]
      by_cases h1 : i ∈ active ∧ key_name ∈ c.keys
      · rw [if_pos h1]
        by_cases h2 : c.mode = "hold"
        · rw [if_pos h2]
          by_cases h3 : non_modifier_keys c = []
          · rw [if_pos h3]
            have hfire : relFire c key_name pressed := ⟨h1.2, fun _ => Or.inl h3⟩
            dsimp only
            rw [hotkeyReleaseScan_mem_notin hnd.1]
            simp [Finset.mem_erase, hfire]
          · rw [if_neg h3]
            by_cases h4 : key_name ∉ non_modifier_keys c
            · rw [if_pos h4]
              have hnf : ¬ relFire c key_name pressed := fun hf => by
                rcases hf.2 h2 with hc | hc
                · exact h3 hc
                · exact h4 hc.1
              rw [hotkeyReleaseScan_mem_notin hnd.1]
              simp [h1.1, hnf]
            · rw [if_neg h4]
              by_cases h5 : ((pressed.erase key_name) ∩
                  (non_modifier_keys c).toFinset).Nonempty
              · rw [if_pos h5]
                have hnf : ¬ relFire c key_name pressed := fun hf => by
                  rcases hf.2 h2 with hc | hc
                  · exact h3 hc
                  · exact hc.2 h5
                rw [hotkeyReleaseScan_mem_notin hnd.1]
                simp [h1.1, hnf]
              · rw [if_neg h5]
                have hfire : relFire c key_name pressed :=
                  ⟨h1.2, fun _ => Or.inr ⟨not_not.mp h4, h5⟩⟩
                dsimp only
                rw [hotkeyReleaseScan_mem_notin hnd.1]
                simp [Finset.mem_erase, hfire]
        · rw [if_neg h2]
          have hfire : relFire c key_name pressed :=
            ⟨h1.2, fun hmode => absurd hmode h2⟩
          rw [hotkeyReleaseScan_mem_notin hnd.1]
          simp [Finset.mem_erase, hfire]
      · rw [if_neg h1]
        rw [hotkeyReleaseScan_mem_notin hnd.1]
        constructor
        · intro ha
          exact ⟨ha, fun hf => h1 ⟨ha, hf.1⟩⟩
        · intro ha
          exact ha.1
    · have hji : j ≠ i := fun hh => by
        rw [hh] at hnd
        exact hnd.1 (by simpa using List.mem_map_of_mem Prod.fst hm')
      have herase : (i ∈ active.erase j ↔ i ∈ active) := by
        simp [Finset.mem_erase, Ne.symm hji]
      simp only [hotkeyReleaseScan]
      repeat' split
      all_goals (try dsimp only)
      all_goals rw [ih hnd.2 hm']
      all_goals simp [Finset.mem_erase, Ne.symm hji]

theorem hotkeyReleaseScan_countHK_notin {hks : List (String × HotkeyConfig)}
    {i : String} (h : i ∉ hks.map Prod.fst)
    (key_name : String) (pressed active : Finset String) :
    countHK (hotkeyReleaseScan hks key_name pressed active).2 i = 0 := by
  induction hks generalizing active with
  | nil => simp [hotkeyReleaseScan, countHK]
  | cons p rest ih =>
    obtain ⟨j, c⟩ := p
    simp only [List.map_cons, List.mem_cons, not_or] at h
    have hji : j ≠ i := fun hh => h.1 hh.symm
    simp only [hotkeyReleaseScan]
    repeat' split
    all_goals (try dsimp only)
    all_goals (
      first
      | exact ih h.2 active
      | exact ih h.2 (active.erase j)
      | (have hrec := ih h.2 (active.erase j)
         simp only [countHK, List.countP_cons] at hrec ⊢
         simp [hrec, hji]))

theorem hotkeyReleaseScan_countHK {hks : List (String × HotkeyConfig)}
    {i : String} {c : HotkeyConfig}
    (hnd : (hks.map Prod.fst).Nodup) (hm : (i, c) ∈ hks)
    (key_name : String) (pressed active : Finset String) :
    countHK (hotkeyReleaseScan hks key_name pressed active).2 i =
      if i ∈ active ∧ relFire c key_name pressed ∧ c.mode = "hold"
      then 1 else 0 := by
  induction hks generalizing active with
  | nil => cases hm
  | cons p rest ih =>
    obtain ⟨j, c'⟩ := p
    simp only [List.map_cons, List.nodup_cons] at hnd
    rcases List.mem_cons.1 hm with he | hm'
    · cases he
      have hz : ∀ a : Finset String,
          countHK (hotkeyReleaseScan rest key_name pressed a).2 i = 0 :=
        fun a => hotkeyReleaseScan_countHK_notin hnd.1 key_name pressed a
      simp only [hotkeyReleaseScan]
      by_cases h1 : i ∈ active ∧ key_name ∈ c.keys
      · rw [if_pos h1]
        by_cases h2 : c.mode = "hold"
        · rw [if_pos h2]
          by_cases h3 : non_modifier_keys c = []
          · rw [if_pos h3]
            have hfire : relFire c key_name pressed := ⟨h1.2, fun _ => Or.inl h3⟩
            have := hz (active.erase i)
            dsimp only
            simp only [countHK] at this ⊢
            simp [List.countP_cons, this, h1.1, hfire, h2]
          · rw [if_neg h3]
            by_cases h4 : key_name ∉ non_modifier_keys c
            · rw [if_pos h4]
              have hnf : ¬ relFire c key_name pressed := fun hf => by
                rcases hf.2 h2 with hc | hc
                · exact h3 hc
                · exact h4 hc.1
              rw [hz active]
              simp [hnf]
            · rw [if_neg h4]
              by_cases h5 : ((pressed.erase key_name) ∩
                  (non_modifier_keys c).toFinset).Nonempty
              · rw [if_pos h5]
                have hnf : ¬ relFire c key_name pressed := fun hf => by
                  rcases hf.2 h2 with hc | hc
                  · exact h3 hc
                  · exact hc.2 h5
                rw [hz active]
                simp [hnf]
              · rw [if_neg h5]
                have hfire : relFire c key_name pressed :=
                  ⟨h1.2, fun _ => Or.inr ⟨not_not.mp h4, h5⟩⟩
                have := hz (active.erase i)
                dsimp only
                simp only [countHK] at this ⊢
                simp [List.countP_cons, this, h1.1, hfire, h2]
        · rw [if_neg h2]
          rw [hz (active.erase i)]
          simp [h2]
      · rw [if_neg h1]
        rw [hz active]
        have : ¬ (i ∈ active ∧ relFire c key_name pressed ∧ c.mode = "hold") :=
          fun hh => h1 ⟨hh.1, hh.2.1.1⟩
        simp [this]
    · have hji : j ≠ i := fun hh => by
        rw [hh] at hnd
        exact hnd.1 (by simpa using List.mem_map_of_mem Prod.fst hm')
      have herase : (i ∈ active.erase j ↔ i ∈ active) := by
        simp [Finset.mem_erase, Ne.symm hji]
      have hrec := ih hnd.2 hm' (active.erase j)
      simp only [herase] at hrec
      simp only [hotkeyReleaseScan]
      by_cases h1 : j ∈ active ∧ key_name ∈ c'.keys
      · rw [if_pos h1]
        by_cases h2 : c'.mode = "hold"
        · rw [if_pos h2]
          by_cases h3 : non_modifier_keys c' = []
          · rw [if_pos h3]
            dsimp only
            simp only [countHK, List.countP_cons] at hrec ⊢
            simp [hrec, hji]
          · rw [if_neg h3]
            by_cases h4 : key_name ∉ non_modifier_keys c'
            · rw [if_pos h4]
              exact ih hnd.2 hm' active
            · rw [if_neg h4]
              by_cases h5 : ((pressed.erase key_name) ∩
                  (non_modifier_keys c').toFinset).Nonempty
              · rw [if_pos h5]
                exact ih hnd.2 hm' active
              · rw [if_neg h5]
                dsimp only
                simp only [countHK, List.countP_cons] at hrec ⊢
                simp [hrec, hji]
        · rw [if_neg h2]
          exact hrec
      · rw [if_neg h1]
        exact ih hnd.2 hm' active

theorem hotkeyReleaseScan_sig_shape {hks : List (String × HotkeyConfig)}
    {key_name : String} {pressed active : Finset String} {sg : Signal}
    (h : sg ∈ (hotkeyReleaseScan hks key_name pressed active).2) :
    ∃ j, sg = Signal.hotkey j Action.release := by
  induction hks generalizing active with
  | nil => simp [hotkeyReleaseScan] at h
  | cons p rest ih =>
    obtain ⟨j, c⟩ := p
    simp only [hotkeyReleaseScan] at h
    repeat' split at h
    all_goals (try dsimp only at h)
    all_goals (
      first
      | (rcases List.mem_cons.1 h with he | hm
         · exact ⟨j, he⟩
         · exact ih hm)
      | exact ih h)

theorem snippetReleaseScan_mem_pres {snips : List (String × SnippetConfig)}
    {i : String} (h : ∀ p ∈ snips, "snippet:" ++ p.1 ≠ i)
    (key_name : String) (active : Finset String) :
    (i ∈ snippetReleaseScan snips key_name active ↔ i ∈ active) := by
  induction snips generalizing active with
  | nil => simp [snippetReleaseScan]
  | cons p rest ih =>
    obtain ⟨sid, sc⟩ := p
    have hhead : "snippet:" ++ sid ≠ i := h (sid, sc) (List.mem_cons_self _ _)
    have htail : ∀ p ∈ rest, "snippet:" ++ p.1 ≠ i :=
      fun p hp => h p (List.mem_cons_of_mem _ hp)
    simp only [snippetReleaseScan]
    split
    · rw [ih htail (active.erase ("snippet:" ++ sid))]
      simp [Finset.mem_erase, Ne.symm hhead]
    · exact ih htail active

theorem hotkeyDownScan_sig_shape {hks : List (String × HotkeyConfig)}
    {pressed active : Finset String} {sg : Signal}
    (h : sg ∈ (hotkeyDownScan hks pressed active).2) :
    ∃ j c', (j, c') ∈ hks ∧
      sg = Signal.hotkey j
        (if c'.mode = "hold" then Action.press else Action.toggle) := by
  induction hks generalizing active with
  | nil => simp [hotkeyDownScan] at h
  | cons p rest ih =>
    obtain ⟨j, c⟩ := p
    simp only [hotkeyDownScan] at h
    split at h
    · rcases List.mem_cons.1 h with he | hm
      · exact ⟨j, c, List.mem_cons_self _ _, he⟩
      · obtain ⟨j', c', hmem, heq⟩ := ih hm
        exact ⟨j', c', List.mem_cons_of_mem _ hmem, heq⟩
    · obtain ⟨j', c', hmem, heq⟩ := ih h
      exact ⟨j', c', List.mem_cons_of_mem _ hmem, heq⟩

theorem on_key_press_pressed (cfg : GlobalHotkeySettings) (k : String)
    (s : EngineState) :
    (on_key_press cfg k s).1.pressed_keys = insert k s.pressed_keys := rfl

theorem on_key_press_countHK {cfg : GlobalHotkeySettings} {i : String}
    {c : HotkeyConfig}
    (hnd : (cfg.keyboard_hotkeys.map Prod.fst).Nodup)
    (hm : (i, c) ∈ cfg.keyboard_hotkeys)
    (k : String) (s : EngineState) :
    countHK (on_key_press cfg k s).2 i =
      if c.enabled = true ∧ c.keys.toFinset ⊆ insert k s.pressed_keys ∧
          i ∉ s.active_combos
      then 1 else 0 := by
  unfold on_key_press
  rw [countHK_append]
  rw [hotkeyDownScan_countHK hnd hm]
  rw [snippetDownScan_countHK_zero]
  omega

theorem on_key_press_active_mem {cfg : GlobalHotkeySettings} {i : String}
    {c : HotkeyConfig}
    (hnd : (cfg.keyboard_hotkeys.map Prod.fst).Nodup)
    (hm : (i, c) ∈ cfg.keyboard_hotkeys)
    (hcol : ∀ p ∈ cfg.text_snippets, "snippet:" ++ p.1 ≠ i)
    (k : String) (s : EngineState) :
    (i ∈ (on_key_press cfg k s).1.active_combos ↔
      i ∈ s.active_combos ∨
        (c.enabled = true ∧ c.keys.toFinset ⊆ insert k s.pressed_keys)) := by
  unfold on_key_press
  dsimp only
  rw [snippetDownScan_mem_pres hcol]
  exact hotkeyDownScan_mem hnd hm _ _

theorem on_key_press_sig_act {cfg : GlobalHotkeySettings} {i : String}
    {c : HotkeyConfig} {a : Action}
    (hnd : (cfg.keyboard_hotkeys.map Prod.fst).Nodup)
    (hm : (i, c) ∈ cfg.keyboard_hotkeys)
    (k : String) (s : EngineState)
    (hsg : Signal.hotkey i a ∈ (on_key_press cfg k s).2) :
    a = (if c.mode = "hold" then Action.press else Action.toggle) := by
  unfold on_key_press at hsg
  rcases List.mem_append.1 hsg with hsg | hsg
  · obtain ⟨j, c', hmem, heq⟩ := hotkeyDownScan_sig_shape hsg
    injection heq with hj ha
    rw [← hj] at hmem
    rw [assoc_nodup_eq hnd hm hmem]
    exact ha
  · obtain ⟨sid, sc, _, heq⟩ := snippetDownScan_sig_shape hsg
    cases heq

theorem on_key_release_pressed (cfg : GlobalHotkeySettings) (k : String)
    (s : EngineState) :
    (on_key_release cfg k s).1.pressed_keys = s.pressed_keys.erase k := rfl

theorem on_key_release_sigs (cfg : GlobalHotkeySettings) (k : String)
    (s : EngineState) :
    (on_key_release cfg k s).2 =
      (hotkeyReleaseScan cfg.keyboard_hotkeys k s.pressed_keys s.active_combos).2 :=
  rfl

theorem on_key_release_countHK {cfg : GlobalHotkeySettings} {i : String}
    {c : HotkeyConfig}
    (hnd : (cfg.keyboard_hotkeys.map Prod.fst).Nodup)
    (hm : (i, c) ∈ cfg.keyboard_hotkeys)
    (k : String) (s : EngineState) :
    countHK (on_key_release cfg k s).2 i =
      if i ∈ s.active_combos ∧ relFire c k s.pressed_keys ∧ c.mode = "hold"
      then 1 else 0 := by
  rw [on_key_release_sigs]
  exact hotkeyReleaseScan_countHK hnd hm _ _ _

theorem on_key_release_active_mem {cfg : GlobalHotkeySettings} {i : String}
    {c : HotkeyConfig}
    (hnd : (cfg.keyboard_hotkeys.map Prod.fst).Nodup)
    (hm : (i, c) ∈ cfg.keyboard_hotkeys)
    (hcol : ∀ p ∈ cfg.text_snippets, "snippet:" ++ p.1 ≠ i)
    (k : String) (s : EngineState) :
    (i ∈ (on_key_release cfg k s).1.active_combos ↔
      i ∈ s.active_combos ∧ ¬ relFire c k s.pressed_keys) := by
  unfold on_key_release
  dsimp only
  rw [snippetReleaseScan_mem_pres hcol]
  exact hotkeyReleaseScan_mem hnd hm _ _ _

theorem on_key_release_sig_shape {cfg : GlobalHotkeySettings}
    {k : String} {s : EngineState} {sg : Signal}
    (h : sg ∈ (on_key_release cfg k s).2) :
    ∃ j, sg = Signal.hotkey j Action.release := by
  rw [on_key_release_sigs] at h
  exact hotkeyReleaseScan_sig_shape h

theorem on_key_release_countSnipAll (cfg : GlobalHotkeySettings) (k : String)
    (s : EngineState) :
    countSnipAll (on_key_release cfg k s).2 = 0 := by
  rw [countSnipAll, List.countP_eq_zero]
  intro sg hsg
  obtain ⟨j, rfl⟩ := on_key_release_sig_shape hsg
  simp

theorem run_keyDown_count_inv {cfg : GlobalHotkeySettings} {i : String}
    {c : HotkeyConfig}
    (hnd : (cfg.keyboard_hotkeys.map Prod.fst).Nodup)
    (hm : (i, c) ∈ cfg.keyboard_hotkeys)
    (hcol : ∀ p ∈ cfg.text_snippets, "snippet:" ++ p.1 ≠ i)
    (ks : List String) (s : EngineState) :
    countHK (run cfg (ks.map PEvent.keyDown) s).2 i
        + (if i ∈ s.active_combos then 1 else 0)
      = (if i ∈ (run cfg (ks.map PEvent.keyDown) s).1.active_combos
         then 1 else 0) := by
  induction ks generalizing s with
  | nil => simp [run, countHK]
  | cons k ks ih =>
    simp only [List.map_cons, run, step]
    rw [countHK_append]
    have hstep := on_key_press_countHK hnd hm k s
    have hmem := on_key_press_active_mem hnd hm hcol k s
    have hrest := ih (on_key_press cfg k s).1
    by_cases ha : i ∈ s.active_combos
    · have hs' : i ∈ (on_key_press cfg k s).1.active_combos := hmem.2 (Or.inl ha)
      have e1 : countHK (on_key_press cfg k s).2 i = 0 := by
        rw [hstep]; simp [ha]
      rw [e1, if_pos ha]
      rw [if_pos hs'] at hrest
      omega
    · by_cases hc : c.enabled = true ∧ c.keys.toFinset ⊆ insert k s.pressed_keys
      · have hs' : i ∈ (on_key_press cfg k s).1.active_combos := hmem.2 (Or.inr hc)
        have e1 : countHK (on_key_press cfg k s).2 i = 1 := by
          rw [hstep]; simp [ha, hc.1, hc.2]
        rw [e1, if_neg ha]
        rw [if_pos hs'] at hrest
        omega
      · have hs' : i ∉ (on_key_press cfg k s).1.active_combos := fun hh => by
          rcases hmem.1 hh with h' | h'
          · exact ha h'
          · exact hc h'
        have e1 : countHK (on_key_press cfg k s).2 i = 0 := by
          rw [hstep, if_neg (fun hcond => hc ⟨hcond.1, hcond.2.1⟩)]
        rw [e1, if_neg ha]
        rw [if_neg hs'] at hrest
        omega

theorem run_keyDown_last_active {cfg : GlobalHotkeySettings} {i : String}
    {c : HotkeyConfig}
    (hnd : (cfg.keyboard_hotkeys.map Prod.fst).Nodup)
    (hm : (i, c) ∈ cfg.keyboard_hotkeys)
    (hcol : ∀ p ∈ cfg.text_snippets, "snippet:" ++ p.1 ≠ i)
    (henab : c.enabled = true)
    (ks : List String) (k : String) (s : EngineState)
    (hsub : c.keys.toFinset ⊆
      (run cfg ((ks ++ [k]).map PEvent.keyDown) s).1.pressed_keys) :
    i ∈ (run cfg ((ks ++ [k]).map PEvent.keyDown) s).1.active_combos := by
  induction ks generalizing s with
  | nil =>
    simp only [List.nil_append, List.map_cons, List.map_nil, run, step] at hsub ⊢
    refine (on_key_press_active_mem hnd hm hcol k s).2 (Or.inr ⟨henab, ?_⟩)
    simpa [on_key_press_pressed] using hsub
  | cons k0 ks ih =>
    simp only [List.cons_append, List.map_cons, run, step] at hsub ⊢
    exact ih (on_key_press cfg k0 s).1 hsub

theorem run_keyDown_sig_act {cfg : GlobalHotkeySettings} {i : String}
    {c : HotkeyConfig} {a : Action}
    (hnd : (cfg.keyboard_hotkeys.map Prod.fst).Nodup)
    (hm : (i, c) ∈ cfg.keyboard_hotkeys)
    (ks : List String) (s : EngineState)
    (hsg : Signal.hotkey i a ∈ (run cfg (ks.map PEvent.keyDown) s).2) :
    a = (if c.mode = "hold" then Action.press else Action.toggle) := by
  induction ks generalizing s with
  | nil => simp [run] at hsg
  | cons k ks ih =>
    simp only [List.map_cons, run, step] at hsg
    rcases List.mem_append.1 hsg with h | h
    · exact on_key_press_sig_act hnd hm k s h
    · exact ih (on_key_press cfg k s).1 h

namespace MacOS

theorem macHotkeyScan_mem_notin {hks : List (String × HotkeyConfig)}
    {i : String} (h : i ∉ hks.map Prod.fst)
    (all_pressed active : Finset String) :
    (i ∈ (macHotkeyScan hks all_pressed active).1 ↔ i ∈ active) := by
  induction hks generalizing active with
  | nil => simp [macHotkeyScan]
  | cons p rest ih =>
    obtain ⟨j, c⟩ := p
    simp only [List.map_cons, List.mem_cons, not_or] at h
    simp only [macHotkeyScan]
    split
    · rw [ih h.2 (insert j active)]
      simp [Finset.mem_insert, h.1]
    · exact ih h.2 active

theorem macHotkeyScan_mem {hks : List (String × HotkeyConfig)}
    {i : String} {c : HotkeyConfig}
    (hnd : (hks.map Prod.fst).Nodup) (hm : (i, c) ∈ hks)
    (all_pressed active : Finset String) :
    (i ∈ (macHotkeyScan hks all_pressed active).1 ↔
      i ∈ active ∨
        (c.enabled = true ∧ convert_keys_to_macos c.keys ⊆ all_pressed)) := by
  induction hks generalizing active with
  | nil => cases hm
  | cons p rest ih =>
    obtain ⟨j, c'⟩ := p
    simp only [List.map_cons, List.nodup_cons] at hnd
    rcases List.mem_cons.1 hm with he | hm'
    · cases he
      simp only [macHotkeyScan]
      by_cases hcond : c.enabled = true ∧
          convert_keys_to_macos c.keys ⊆ all_pressed ∧ i ∉ active
      · rw [if_pos hcond]
        rw [macHotkeyScan_mem_notin hnd.1]
        simp [Finset.mem_insert, hcond.1, hcond.2.1]
      · rw [if_neg hcond]
        rw [macHotkeyScan_mem_notin hnd.1]
        by_cases ha : i ∈ active
        · simp [ha]
        · simp only [ha, false_or, false_iff]
          intro hcs
          exact hcond ⟨hcs.1, hcs.2, ha⟩
    · have hji : j ≠ i := fun hh => by
        rw [hh] at hnd
        exact hnd.1 (by simpa using List.mem_map_of_mem Prod.fst hm')
      simp only [macHotkeyScan]
      split
      · rw [ih hnd.2 hm' (insert j active)]
        simp [Finset.mem_insert, Ne.symm hji]
      · exact ih hnd.2 hm' active

theorem macHotkeyScan_countHK_notin {hks : List (String × HotkeyConfig)}
    {i : String} (h : i ∉ hks.map Prod.fst)
    (all_pressed active : Finset String) :
    countHK (macHotkeyScan hks all_pressed active).2 i = 0 := by
  induction hks generalizing active with
  | nil => simp [macHotkeyScan, countHK]
  | cons p rest ih =>
    obtain ⟨j, c⟩ := p
    simp only [List.map_cons, List.mem_cons, not_or] at h
    have hji : j ≠ i := fun hh => h.1 hh.symm
    simp only [macHotkeyScan]
    split
    · have hrec := ih h.2 (insert j active)
      simp only [countHK] at hrec ⊢
      simp [List.countP_cons, hrec, hji]
    · exact ih h.2 active

theorem macHotkeyScan_countHK {hks : List (String × HotkeyConfig)}
    {i : String} {c : HotkeyConfig}
    (hnd : (hks.map Prod.fst).Nodup) (hm : (i, c) ∈ hks)
    (all_pressed active : Finset String) :
    countHK (macHotkeyScan hks all_pressed active).2 i =
      if c.enabled = true ∧ convert_keys_to_macos c.keys ⊆ all_pressed ∧
          i ∉ active
      then 1 else 0 := by
  induction hks generalizing active with
  | nil => cases hm
  | cons p rest ih =>
    obtain ⟨j, c'⟩ := p
    simp only [List.map_cons, List.nodup_cons] at hnd
    rcases List.mem_cons.1 hm with he | hm'
    · cases he
      simp only [macHotkeyScan]
      by_cases hcond : c.enabled = true ∧
          convert_keys_to_macos c.keys ⊆ all_pressed ∧ i ∉ active
      · rw [if_pos hcond, if_pos hcond]
        have hz := macHotkeyScan_countHK_notin hnd.1 all_pressed (insert i active)
        simp only [countHK] at hz ⊢
        simp [List.countP_cons, hz]
      · rw [if_neg hcond, if_neg hcond]
        exact macHotkeyScan_countHK_notin hnd.1 all_pressed active
    · have hji : j ≠ i := fun hh => by
        rw [hh] at hnd
        exact hnd.1 (by simpa using List.mem_map_of_mem Prod.fst hm')
      simp only [macHotkeyScan]
      split
      · have hrec := ih hnd.2 hm' (insert j active)
        have hmemins : (i ∈ insert j active) ↔ (i ∈ active) := by
          simp [Finset.mem_insert, Ne.symm hji]
        simp only [countHK] at hrec ⊢
        rw [List.countP_cons]
        simp only [hmemins] at hrec
        simp [hrec, hji]
      · exact ih hnd.2 hm' active

theorem macHotkeyScan_sig_shape {hks : List (String × HotkeyConfig)}
    {all_pressed active : Finset String} {sg : Signal}
    (h : sg ∈ (macHotkeyScan hks all_pressed active).2) :
    ∃ j c', (j, c') ∈ hks ∧
      sg = Signal.hotkey j
        (if c'.mode = "hold" then Action.press else Action.toggle) := by
  induction hks generalizing active with
  | nil => simp [macHotkeyScan] at h
  | cons p rest ih =>
    obtain ⟨j, c⟩ := p
    simp only [macHotkeyScan] at h
    split at h
    · rcases List.mem_cons.1 h with he | hm
      · exact ⟨j, c, List.mem_cons_self _ _, he⟩
      · obtain ⟨j', c', hmem, heq⟩ := ih hm
        exact ⟨j', c', List.mem_cons_of_mem _ hmem, heq⟩
    · obtain ⟨j', c', hmem, heq⟩ := ih h
      exact ⟨j', c', List.mem_cons_of_mem _ hmem, heq⟩

theorem macSnippetScan_sig_shape {snips : List (String × SnippetConfig)}
    {all_pressed active : Finset String} {sg : Signal}
    (h : sg ∈ (macSnippetScan snips all_pressed active).2) :
    ∃ sid sc, (sid, sc) ∈ snips ∧ sg = Signal.snippet sid sc.text := by
  induction snips generalizing active with
  | nil => simp [macSnippetScan] at h
  | cons p rest ih =>
    obtain ⟨sid, sc⟩ := p
    simp only [macSnippetScan] at h
    split at h
    · rcases List.mem_cons.1 h with he | hm
      · exact ⟨sid, sc, List.mem_cons_self _ _, he⟩
      · obtain ⟨sid', sc', hmem, heq⟩ := ih hm
        exact ⟨sid', sc', List.mem_cons_of_mem _ hmem, heq⟩
    · obtain ⟨sid', sc', hmem, heq⟩ := ih h
      exact ⟨sid', sc', List.mem_cons_of_mem _ hmem, heq⟩

theorem check_hotkeys_sig_act {cfg : GlobalHotkeySettings} {i : String}
    {c : HotkeyConfig} {a : Action}
    (hnd : (cfg.keyboard_hotkeys.map Prod.fst).Nodup)
    (hm : (i, c) ∈ cfg.keyboard_hotkeys)
    (all_pressed active : Finset String)
    (hsg : Signal.hotkey i a ∈ (check_hotkeys cfg all_pressed active).2) :
    a = (if c.mode = "hold" then Action.press else Action.toggle) := by
  unfold check_hotkeys at hsg
  rcases List.mem_append.1 hsg with hsg | hsg
  · obtain ⟨j, c', hmem, heq⟩ := macHotkeyScan_sig_shape hsg
    injection heq with hj ha
    rw [← hj] at hmem
    rw [assoc_nodup_eq hnd hm hmem]
    exact ha
  · obtain ⟨sid, sc, _, heq⟩ := macSnippetScan_sig_shape hsg
    cases heq

theorem macSnippetScan_countHK_zero (snips : List (String × SnippetConfig))
    (all_pressed active : Finset String) (i : String) :
    countHK (macSnippetScan snips all_pressed active).2 i = 0 := by
  induction snips generalizing active with
  | nil => simp [macSnippetScan, countHK]
  | cons p rest ih =>
    obtain ⟨sid, sc⟩ := p
    simp only [macSnippetScan]
    split
    · have hrec := ih (insert ("snippet:" ++ sid) active)
      simp only [countHK] at hrec ⊢
      simp [List.countP_cons, hrec]
    · exact ih active

theorem macSnippetScan_mem_pres {snips : List (String × SnippetConfig)}
    {i : String} (h : ∀ p ∈ snips, "snippet:" ++ p.1 ≠ i)
    (all_pressed active : Finset String) :
    (i ∈ (macSnippetScan snips all_pressed active).1 ↔ i ∈ active) := by
  induction snips generalizing active with
  | nil => simp [macSnippetScan]
  | cons p rest ih =>
    obtain ⟨sid, sc⟩ := p
    have hhead : "snippet:" ++ sid ≠ i := h (sid, sc) (List.mem_cons_self _ _)
    have htail : ∀ p ∈ rest, "snippet:" ++ p.1 ≠ i :=
      fun p hp => h p (List.mem_cons_of_mem _ hp)
    simp only [macSnippetScan]
    split
    · rw [ih htail (insert ("snippet:" ++ sid) active)]
      simp [Finset.mem_insert, Ne.symm hhead]
    · exact ih htail active

theorem macSnippetScan_countSnip_notin {snips : List (String × SnippetConfig)}
    {sid : String} (h : sid ∉ snips.map Prod.fst)
    (all_pressed active : Finset String) :
    countSnip (macSnippetScan snips all_pressed active).2 sid = 0 := by
  induction snips generalizing active with
  | nil => simp [macSnippetScan, countSnip]
  | cons p rest ih =>
    obtain ⟨sid', sc⟩ := p
    simp only [List.map_cons, List.mem_cons, not_or] at h
    have hne : sid' ≠ sid := fun hh => h.1 hh.symm
    simp only [macSnippetScan]
    split
    · have hrec := ih h.2 (insert ("snippet:" ++ sid') active)
      simp only [countSnip] at hrec ⊢
      simp [List.countP_cons, hrec, hne]
    · exact ih h.2 active

theorem macSnippetScan_countSnip {snips : List (String × SnippetConfig)}
    {sid : String} {sc : SnippetConfig}
    (hnd : (snips.map Prod.fst).Nodup) (hm : (sid, sc) ∈ snips)
    (all_pressed active : Finset String) :
    countSnip (macSnippetScan snips all_pressed active).2 sid =
      if sc.enabled = true ∧ convert_keys_to_macos sc.keys = all_pressed ∧
          ("snippet:" ++ sid) ∉ active
      then 1 else 0 := by
  induction snips generalizing active with
  | nil => cases hm
  | cons p rest ih =>
    obtain ⟨sid', sc'⟩ := p
    simp only [List.map_cons, List.nodup_cons] at hnd
    rcases List.mem_cons.1 hm with he | hm'
    · cases he
      simp only [macSnippetScan]
      by_cases hcond : sc.enabled = true ∧
          convert_keys_to_macos sc.keys = all_pressed ∧
          ("snippet:" ++ sid) ∉ active
      · rw [if_pos hcond, if_pos hcond]
        have hz := macSnippetScan_countSnip_notin hnd.1 all_pressed
          (insert ("snippet:" ++ sid) active)
        simp only [countSnip] at hz ⊢
        simp [List.countP_cons, hz]
      · rw [if_neg hcond, if_neg hcond]
        exact macSnippetScan_countSnip_notin hnd.1 all_pressed active
    · have hne : sid' ≠ sid := fun hh => by
        rw [hh] at hnd
        exact hnd.1 (by simpa using List.mem_map_of_mem Prod.fst hm')
      have hkey : ("snippet:" ++ sid') ≠ ("snippet:" ++ sid) :=
        fun hh => hne (snipkey_inj hh)
      simp only [macSnippetScan]
      split
      · have hrec := ih hnd.2 hm' (insert ("snippet:" ++ sid') active)
        have hmemins : (("snippet:" ++ sid) ∈ insert ("snippet:" ++ sid') active) ↔
            (("snippet:" ++ sid) ∈ active) := by
          simp [Finset.mem_insert, Ne.symm hkey]
        simp only [countSnip] at hrec ⊢
        rw [List.countP_cons]
        simp only [hmemins] at hrec
        simp [hrec, hne]
      · exact ih hnd.2 hm' active

theorem check_hotkeys_countHK {cfg : GlobalHotkeySettings} {i : String}
    {c : HotkeyConfig}
    (hnd : (cfg.keyboard_hotkeys.map Prod.fst).Nodup)
    (hm : (i, c) ∈ cfg.keyboard_hotkeys)
    (all_pressed active : Finset String) :
    countHK (check_hotkeys cfg all_pressed active).2 i =
      if c.enabled = true ∧ convert_keys_to_macos c.keys ⊆ all_pressed ∧
          i ∉ active
      then 1 else 0 := by
  unfold check_hotkeys
  rw [countHK_append, macHotkeyScan_countHK hnd hm,
    macSnippetScan_countHK_zero]
  omega

theorem macReleaseScan_countHK_notin {hks : List (String × HotkeyConfig)}
    {i : String} (h : i ∉ hks.map Prod.fst)
    (released active : Finset String) :
    countHK (macReleaseScan hks released active).2 i = 0 := by
  induction hks with
  | nil => simp [macReleaseScan, countHK]
  | cons p rest ih =>
    obtain ⟨j, c⟩ := p
    simp only [List.map_cons, List.mem_cons, not_or] at h
    have hji : j ≠ i := fun hh => h.1 hh.symm
    simp only [macReleaseScan]
    split
    · rw [countHK_append]
      rw [ih h.2]
      have : countHK (if c.mode = "hold"
          then [Signal.hotkey j Action.release] else []) i = 0 := by
        split <;> simp [countHK, hji]
      omega
    · exact ih h.2

theorem macReleaseScan_countHK {hks : List (String × HotkeyConfig)}
    {i : String} {c : HotkeyConfig}
    (hnd : (hks.map Prod.fst).Nodup) (hm : (i, c) ∈ hks)
    (released active : Finset String) :
    countHK (macReleaseScan hks released active).2 i =
      if i ∈ active ∧ (released ∩ convert_keys_to_macos c.keys).Nonempty ∧
          c.mode = "hold"
      then 1 else 0 := by
  induction hks with
  | nil => cases hm
  | cons p rest ih =>
    obtain ⟨j, c'⟩ := p
    simp only [List.map_cons, List.nodup_cons] at hnd
    rcases List.mem_cons.1 hm with he | hm'
    · cases he
      have hz := macReleaseScan_countHK_notin hnd.1 released active
      simp only [macReleaseScan]
      by_cases h1 : i ∈ active ∧
          (released ∩ convert_keys_to_macos c.keys).Nonempty
      · rw [if_pos h1]
        rw [countHK_append, hz]
        by_cases h2 : c.mode = "hold"
        · rw [if_pos h2]
          simp [countHK, h1, h2]
        · rw [if_neg h2]
          simp [countHK, h2]
      · rw [if_neg h1]
        rw [hz]
        have : ¬ (i ∈ active ∧
            (released ∩ convert_keys_to_macos c.keys).Nonempty ∧
            c.mode = "hold") := fun hh => h1 ⟨hh.1, hh.2.1⟩
        simp [this]
    · have hji : j ≠ i := fun hh => by
        rw [hh] at hnd
        exact hnd.1 (by simpa using List.mem_map_of_mem Prod.fst hm')
      simp only [macReleaseScan]
      split
      · rw [countHK_append, ih hnd.2 hm']
        have : countHK (if c'.mode = "hold"
            then [Signal.hotkey j Action.release] else []) i = 0 := by
          split <;> simp [countHK, hji]
        omega
      · exact ih hnd.2 hm'

theorem macReleaseScan_remove_mem {hks : List (String × HotkeyConfig)}
    {i : String} {c : HotkeyConfig}
    (hm : (i, c) ∈ hks) (released active : Finset String)
    (ha : i ∈ active)
    (hne : (released ∩ convert_keys_to_macos c.keys).Nonempty) :
    i ∈ (macReleaseScan hks released active).1 := by
  induction hks with
  | nil => cases hm
  | cons p rest ih =>
    obtain ⟨j, c'⟩ := p
    rcases List.mem_cons.1 hm with he | hm'
    · cases he
      simp only [macReleaseScan]
      rw [if_pos ⟨ha, hne⟩]
      exact List.mem_cons_self _ _
    · simp only [macReleaseScan]
      split
      · exact List.mem_cons_of_mem _ (ih hm')
      · exact ih hm'

theorem macReleaseScan_sig_shape {hks : List (String × HotkeyConfig)}
    {released active : Finset String} {sg : Signal}
    (h : sg ∈ (macReleaseScan hks released active).2) :
    ∃ j, sg = Signal.hotkey j Action.release := by
  induction hks with
  | nil => simp [macReleaseScan] at h
  | cons p rest ih =>
    obtain ⟨j, c⟩ := p
    simp only [macReleaseScan] at h
    split at h
    · rcases List.mem_append.1 h with h' | h'
      · refine ⟨j, ?_⟩
        revert h'
        split
        · intro h'
          simpa using h'
        · intro h'
          simp at h'
      · exact ih h'
    · exact ih h

theorem check_releases_sigs (cfg : GlobalHotkeySettings)
    (released current active : Finset String) :
    (check_releases cfg released current active).2 =
      (macReleaseScan cfg.keyboard_hotkeys released active).2 := rfl

theorem check_releases_countHK {cfg : GlobalHotkeySettings} {i : String}
    {c : HotkeyConfig}
    (hnd : (cfg.keyboard_hotkeys.map Prod.fst).Nodup)
    (hm : (i, c) ∈ cfg.keyboard_hotkeys)
    (released current active : Finset String) :
    countHK (check_releases cfg released current active).2 i =
      if i ∈ active ∧ (released ∩ convert_keys_to_macos c.keys).Nonempty ∧
          c.mode = "hold"
      then 1 else 0 := by
  rw [check_releases_sigs]
  exact macReleaseScan_countHK hnd hm _ _

theorem check_releases_removed {cfg : GlobalHotkeySettings} {i : String}
    {c : HotkeyConfig}
    (hm : (i, c) ∈ cfg.keyboard_hotkeys)
    (released current active : Finset String)
    (ha : i ∈ active)
    (hne : (released ∩ convert_keys_to_macos c.keys).Nonempty) :
    i ∉ (check_releases cfg released current active).1 := by
  unfold check_releases
  intro hmem
  rw [Finset.mem_sdiff] at hmem
  exact hmem.2 (Finset.mem_union_left _
    (List.mem_toFinset.2 (macReleaseScan_remove_mem hm released active ha hne)))

theorem check_releases_countSnipAll (cfg : GlobalHotkeySettings)
    (released current active : Finset String) :
    countSnipAll (check_releases cfg released current active).2 = 0 := by
  rw [check_releases_sigs, countSnipAll, List.countP_eq_zero]
  intro sg hsg
  obtain ⟨j, rfl⟩ := macReleaseScan_sig_shape hsg
  simp

theorem event_callback_keyDown_none {kc : Nat}
    (hname : keycode_to_name kc = none)
    (cfg : GlobalHotkeySettings) (mods : Finset String) (s : MacState) :
    event_callback cfg (MacEvent.keyDown kc mods) s = (s, []) := by
  simp [event_callback, hname]

theorem event_callback_keyUp_none {kc : Nat}
    (hname : keycode_to_name kc = none)
    (cfg : GlobalHotkeySettings) (mods : Finset String) (s : MacState) :
    event_callback cfg (MacEvent.keyUp kc mods) s = (s, []) := by
  simp [event_callback, hname]

theorem event_callback_keyUp_some {kc : Nat} {key_name : String}
    (hname : keycode_to_name kc = some key_name)
    (cfg : GlobalHotkeySettings) (mods : Finset String) (s : MacState) :
    event_callback cfg (MacEvent.keyUp kc mods) s =
      (⟨s.pressed_keys.erase key_name,
        (check_releases cfg {key_name} mods s.active_combos).1,
        s.last_modifiers⟩,
       (check_releases cfg {key_name} mods s.active_combos).2) := by
  simp [event_callback, hname]

theorem event_callback_mouseDown_state (cfg : GlobalHotkeySettings)
    (button : Nat) (s : MacState) :
    (event_callback cfg (MacEvent.otherMouseDown button) s).1 = s := rfl

theorem event_callback_mouseUp_state (cfg : GlobalHotkeySettings)
    (button : Nat) (s : MacState) :
    (event_callback cfg (MacEvent.otherMouseUp button) s).1 = s := rfl

theorem macMouseDownScan_countMouse_notin
    {l : List (String × MouseConfig)} {i : String}
    (h : i ∉ l.map Prod.fst) :
    countMouse (macMouseDownScan l) i = 0 := by
  induction l with
  | nil => simp [macMouseDownScan, countMouse]
  | cons p rest ih =>
    obtain ⟨j, c⟩ := p
    simp only [List.map_cons, List.mem_cons, not_or] at h
    have hji : j ≠ i := fun hh => h.1 hh.symm
    simp only [macMouseDownScan]
    rw [countMouse, List.countP_append, ← countMouse, ← countMouse, ih h.2]
    have : countMouse (if c.enabled = true ∧ c.button = "middle"
        then [Signal.mouse j (if c.mode = "hold" then Action.press
          else Action.toggle)] else []) i = 0 := by
      split <;> simp [countMouse, hji]
    omega

theorem macMouseDownScan_countMouse
    {l : List (String × MouseConfig)} {i : String} {c : MouseConfig}
    (hnd : (l.map Prod.fst).Nodup) (hm : (i, c) ∈ l) :
    countMouse (macMouseDownScan l) i =
      if c.enabled = true ∧ c.button = "middle" then 1 else 0 := by
  induction l with
  | nil => cases hm
  | cons p rest ih =>
    obtain ⟨j, c'⟩ := p
    simp only [List.map_cons, List.nodup_cons] at hnd
    rcases List.mem_cons.1 hm with he | hm'
    · cases he
      have hz := macMouseDownScan_countMouse_notin hnd.1
      simp only [macMouseDownScan]
      rw [countMouse, List.countP_append, ← countMouse, ← countMouse, hz]
      split
      · next hc => simp [countMouse, hc]
      · next hc => simp [countMouse, hc]
    · have hji : j ≠ i := fun hh => by
        rw [hh] at hnd
        exact hnd.1 (by simpa using List.mem_map_of_mem Prod.fst hm')
      simp only [macMouseDownScan]
      rw [countMouse, List.countP_append, ← countMouse, ← countMouse,
        ih hnd.2 hm']
      have : countMouse (if c'.enabled = true ∧ c'.button = "middle"
          then [Signal.mouse j (if c'.mode = "hold" then Action.press
            else Action.toggle)] else []) i = 0 := by
        split <;> simp [countMouse, hji]
      omega

theorem macMouseUpScan_countMouse_notin
    {l : List (String × MouseConfig)} {i : String}
    (h : i ∉ l.map Prod.fst) :
    countMouse (macMouseUpScan l) i = 0 := by
  induction l with
  | nil => simp [macMouseUpScan, countMouse]
  | cons p rest ih =>
    obtain ⟨j, c⟩ := p
    simp only [List.map_cons, List.mem_cons, not_or] at h
    have hji : j ≠ i := fun hh => h.1 hh.symm
    simp only [macMouseUpScan]
    rw [countMouse, List.countP_append, ← countMouse, ← countMouse, ih h.2]
    have : countMouse (if c.enabled = true ∧ c.button = "middle" ∧
        c.mode = "hold" then [Signal.mouse j Action.release] else []) i = 0 := by
      split <;> simp [countMouse, hji]
    omega

theorem macMouseUpScan_countMouse
    {l : List (String × MouseConfig)} {i : String} {c : MouseConfig}
    (hnd : (l.map Prod.fst).Nodup) (hm : (i, c) ∈ l) :
    countMouse (macMouseUpScan l) i =
      if c.enabled = true ∧ c.button = "middle" ∧ c.mode = "hold"
      then 1 else 0 := by
  induction l with
  | nil => cases hm
  | cons p rest ih =>
    obtain ⟨j, c'⟩ := p
    simp only [List.map_cons, List.nodup_cons] at hnd
    rcases List.mem_cons.1 hm with he | hm'
    · cases he
      have hz := macMouseUpScan_countMouse_notin hnd.1
      simp only [macMouseUpScan]
      rw [countMouse, List.countP_append, ← countMouse, ← countMouse, hz]
      split
      · next hc => simp [countMouse, hc]
      · next hc => simp [countMouse, hc]
    · have hji : j ≠ i := fun hh => by
        rw [hh] at hnd
        exact hnd.1 (by simpa using List.mem_map_of_mem Prod.fst hm')
      simp only [macMouseUpScan]
      rw [countMouse, List.countP_append, ← countMouse, ← countMouse,
        ih hnd.2 hm']
      have : countMouse (if c'.enabled = true ∧ c'.button = "middle" ∧
          c'.mode = "hold" then [Signal.mouse j Action.release] else []) i = 0 := by
        split <;> simp [countMouse, hji]
      omega

theorem macMouseDownScan_sig_shape {l : List (String × MouseConfig)}
    {sg : Signal} (h : sg ∈ macMouseDownScan l) :
    ∃ j c', (j, c') ∈ l ∧
      sg = Signal.mouse j
        (if c'.mode = "hold" then Action.press else Action.toggle) := by
  induction l with
  | nil => simp [macMouseDownScan] at h
  | cons p rest ih =>
    obtain ⟨j, c⟩ := p
    simp only [macMouseDownScan] at h
    rcases List.mem_append.1 h with h' | h'
    · refine ⟨j, c, List.mem_cons_self _ _, ?_⟩
      revert h'
      split
      · intro h'; simpa using h'
      · intro h'; simp at h'
    · obtain ⟨j', c', hmem, heq⟩ := ih h'
      exact ⟨j', c', List.mem_cons_of_mem _ hmem, heq⟩

theorem macMouseUpScan_sig_shape {l : List (String × MouseConfig)}
    {sg : Signal} (h : sg ∈ macMouseUpScan l) :
    ∃ j, sg = Signal.mouse j Action.release := by
  induction l with
  | nil => simp [macMouseUpScan] at h
  | cons p rest ih =>
    obtain ⟨j, c⟩ := p
    simp only [macMouseUpScan] at h
    rcases List.mem_append.1 h with h' | h'
    · refine ⟨j, ?_⟩
      revert h'
      split
      · intro h'; simpa using h'
      · intro h'; simp at h'
    · exact ih h'

end MacOS

namespace MacOS

theorem check_hotkeys_mem {cfg : GlobalHotkeySettings} {i : String}
    {c : HotkeyConfig}
    (hnd : (cfg.keyboard_hotkeys.map Prod.fst).Nodup)
    (hm : (i, c) ∈ cfg.keyboard_hotkeys)
    (hcol : ∀ p ∈ cfg.text_snippets, "snippet:" ++ p.1 ≠ i)
    (all_pressed active : Finset String) :
    (i ∈ (check_hotkeys cfg all_pressed active).1 ↔
      i ∈ active ∨
        (c.enabled = true ∧ convert_keys_to_macos c.keys ⊆ all_pressed)) := by
  unfold check_hotkeys
  dsimp only
  rw [macSnippetScan_mem_pres hcol]
  exact macHotkeyScan_mem hnd hm _ _

theorem check_hotkeys_countSnip {cfg : GlobalHotkeySettings} {sid : String}
    {sc : SnippetConfig}
    (hndS : (cfg.text_snippets.map Prod.fst).Nodup)
    (hm : (sid, sc) ∈ cfg.text_snippets)
    (hhk : ("snippet:" ++ sid) ∉ cfg.keyboard_hotkeys.map Prod.fst)
    (all_pressed active : Finset String) :
    countSnip (check_hotkeys cfg all_pressed active).2 sid =
      if sc.enabled = true ∧ convert_keys_to_macos sc.keys = all_pressed ∧
          ("snippet:" ++ sid) ∉ active
      then 1 else 0 := by
  unfold check_hotkeys
  dsimp only
  rw [countSnip, List.countP_append, ← countSnip, ← countSnip]
  have hz : countSnip (macHotkeyScan cfg.keyboard_hotkeys all_pressed active).2
      sid = 0 := by
    rw [countSnip, List.countP_eq_zero]
    intro sg hsg
    obtain ⟨j, c', _, rfl⟩ := macHotkeyScan_sig_shape hsg
    simp
  rw [hz, macSnippetScan_countSnip hndS hm]
  simp only [macHotkeyScan_mem_notin hhk]
  omega

theorem check_hotkeys_snip_sig_text {cfg : GlobalHotkeySettings}
    {sid t : String} {sc : SnippetConfig}
    (hndS : (cfg.text_snippets.map Prod.fst).Nodup)
    (hm : (sid, sc) ∈ cfg.text_snippets)
    (all_pressed active : Finset String)
    (hsg : Signal.snippet sid t ∈ (check_hotkeys cfg all_pressed active).2) :
    t = sc.text := by
  unfold check_hotkeys at hsg
  rcases List.mem_append.1 hsg with hsg | hsg
  · obtain ⟨j, c', _, heq⟩ := macHotkeyScan_sig_shape hsg
    cases heq
  · obtain ⟨sid', sc', hmem, heq⟩ := macSnippetScan_sig_shape hsg
    injection heq with hs ht
    rw [← hs] at hmem
    rw [ht, assoc_nodup_eq hndS hm hmem]

end MacOS

theorem hotkeyDownScan_countSnip_zero (hks : List (String × HotkeyConfig))
    (pressed active : Finset String) (sid : String) :
    countSnip (hotkeyDownScan hks pressed active).2 sid = 0 := by
  rw [countSnip, List.countP_eq_zero]
  intro sg hsg
  obtain ⟨j, c', _, rfl⟩ := hotkeyDownScan_sig_shape hsg
  simp

theorem on_key_press_countSnip {cfg : GlobalHotkeySettings} {sid : String}
    {sc : SnippetConfig}
    (hndS : (cfg.text_snippets.map Prod.fst).Nodup)
    (hm : (sid, sc) ∈ cfg.text_snippets)
    (hhk : ("snippet:" ++ sid) ∉ cfg.keyboard_hotkeys.map Prod.fst)
    (k : String) (s : EngineState) :
    countSnip (on_key_press cfg k s).2 sid =
      if sc.enabled = true ∧ sc.keys.toFinset = insert k s.pressed_keys ∧
          ("snippet:" ++ sid) ∉ s.active_combos
      then 1 else 0 := by
  unfold on_key_press
  dsimp only
  rw [countSnip, List.countP_append, ← countSnip, ← countSnip]
  rw [hotkeyDownScan_countSnip_zero, snippetDownScan_countSnip hndS hm]
  simp only [hotkeyDownScan_mem_notin hhk]
  omega

theorem on_key_press_snip_sig_text {cfg : GlobalHotkeySettings}
    {sid t : String} {sc : SnippetConfig}
    (hndS : (cfg.text_snippets.map Prod.fst).Nodup)
    (hm : (sid, sc) ∈ cfg.text_snippets)
    (k : String) (s : EngineState)
    (hsg : Signal.snippet sid t ∈ (on_key_press cfg k s).2) :
    t = sc.text := by
  unfold on_key_press at hsg
  rcases List.mem_append.1 hsg with hsg | hsg
  · obtain ⟨j, c', _, heq⟩ := hotkeyDownScan_sig_shape hsg
    cases heq
  · obtain ⟨sid', sc', hmem, heq⟩ := snippetDownScan_sig_shape hsg
    injection heq with hs ht
    rw [← hs] at hmem
    rw [ht, assoc_nodup_eq hndS hm hmem]

theorem countMouse_append (a b : List Signal) (i : String) :
    countMouse (a ++ b) i = countMouse a i + countMouse b i := by
  simp [countMouse, List.countP_append]

theorem countMouse_all_ne {i j : String} (hji : j ≠ i) {blk : List Signal}
    (hblk : ∀ sg ∈ blk, ∃ a, sg = Signal.mouse j a) :
    countMouse blk i = 0 := by
  rw [countMouse, List.countP_eq_zero]
  intro sg hsg
  obtain ⟨a, rfl⟩ := hblk sg hsg
  simp [hji]

theorem mouseScan_countMouse_notin {l : List (String × MouseConfig)}
    {i : String} (h : i ∉ l.map Prod.fst) (pressed : Bool) :
    countMouse (mouseScan l pressed) i = 0 := by
  induction l with
  | nil => simp [mouseScan, countMouse]
  | cons p rest ih =>
    obtain ⟨j, c⟩ := p
    simp only [List.map_cons, List.mem_cons, not_or] at h
    have hji : j ≠ i := fun hh => h.1 hh.symm
    simp only [mouseScan]
    rw [countMouse_append, ih h.2, Nat.add_zero]
    apply countMouse_all_ne hji
    intro sg hsg
    repeat' split at hsg
    all_goals simp at hsg
    all_goals exact ⟨_, hsg⟩

theorem mouseScan_countMouse_down {l : List (String × MouseConfig)}
    {i : String} {c : MouseConfig}
    (hnd : (l.map Prod.fst).Nodup) (hm : (i, c) ∈ l) :
    countMouse (mouseScan l true) i =
      if c.enabled = true ∧ c.button = "middle" then 1 else 0 := by
  induction l with
  | nil => cases hm
  | cons p rest ih =>
    obtain ⟨j, c'⟩ := p
    simp only [List.map_cons, List.nodup_cons] at hnd
    rcases List.mem_cons.1 hm with he | hm'
    · cases he
      have hz := mouseScan_countMouse_notin hnd.1 true
      simp only [mouseScan]
      rw [countMouse_append, hz, Nat.add_zero]
      by_cases hc : c.enabled = true ∧ c.button = "middle"
      · rw [if_pos hc, if_pos hc]
        simp [countMouse]
      · rw [if_neg hc, if_neg hc]
        simp [countMouse]
    · have hji : j ≠ i := fun hh => by
        rw [hh] at hnd
        exact hnd.1 (by simpa using List.mem_map_of_mem Prod.fst hm')
      simp only [mouseScan]
      rw [countMouse_append, ih hnd.2 hm']
      have hhead : countMouse (if c'.enabled = true ∧ c'.button = "middle" then
          if True then
            [Signal.mouse j (if c'.mode = "hold" then Action.press
              else Action.toggle)]
          else if c'.mode = "hold" then [Signal.mouse j Action.release]
          else []
        else []) i = 0 := by
        apply countMouse_all_ne hji
        intro sg hsg
        repeat' split at hsg
        all_goals simp at hsg
        all_goals exact ⟨_, hsg⟩
      rw [hhead, Nat.zero_add]

theorem mouseScan_countMouse_up {l : List (String × MouseConfig)}
    {i : String} {c : MouseConfig}
    (hnd : (l.map Prod.fst).Nodup) (hm : (i, c) ∈ l) :
    countMouse (mouseScan l false) i =
      if c.enabled = true ∧ c.button = "middle" ∧ c.mode = "hold"
      then 1 else 0 := by
  induction l with
  | nil => cases hm
  | cons p rest ih =>
    obtain ⟨j, c'⟩ := p
    simp only [List.map_cons, List.nodup_cons] at hnd
    rcases List.mem_cons.1 hm with he | hm'
    · cases he
      have hz := mouseScan_countMouse_notin hnd.1 false
      simp only [mouseScan]
      rw [countMouse_append, hz, Nat.add_zero]
      by_cases hc : c.enabled = true ∧ c.button = "middle"
      · rw [if_pos hc]
        by_cases hc2 : c.mode = "hold"
        · simp [countMouse, hc.1, hc.2, hc2]
        · simp [countMouse, hc2]
      · rw [if_neg hc]
        have : ¬ (c.enabled = true ∧ c.button = "middle" ∧ c.mode = "hold") :=
          fun hh => hc ⟨hh.1, hh.2.1⟩
        simp [countMouse, this]
    · have hji : j ≠ i := fun hh => by
        rw [hh] at hnd
        exact hnd.1 (by simpa using List.mem_map_of_mem Prod.fst hm')
      simp only [mouseScan]
      rw [countMouse_append, ih hnd.2 hm']
      have hhead : countMouse (if c'.enabled = true ∧ c'.button = "middle" then
          if false = true then
            [Signal.mouse j (if c'.mode = "hold" then Action.press
              else Action.toggle)]
          else if c'.mode = "hold" then [Signal.mouse j Action.release]
          else []
        else []) i = 0 := by
        apply countMouse_all_ne hji
        intro sg hsg
        repeat' split at hsg
        all_goals simp at hsg
        all_goals exact ⟨_, hsg⟩
      rw [hhead, Nat.zero_add]

theorem mouseScan_down_sig_shape {l : List (String × MouseConfig)}
    {sg : Signal} (h : sg ∈ mouseScan l true) :
    ∃ j c', (j, c') ∈ l ∧
      sg = Signal.mouse j
        (if c'.mode = "hold" then Action.press else Action.toggle) := by
  induction l with
  | nil => simp [mouseScan] at h
  | cons p rest ih =>
    obtain ⟨j, c⟩ := p
    simp only [mouseScan] at h
    rcases List.mem_append.1 h with h' | h'
    · refine ⟨j, c, List.mem_cons_self _ _, ?_⟩
      repeat' split at h'
      all_goals simp_all
    · obtain ⟨j', c', hmem, heq⟩ := ih h'
      exact ⟨j', c', List.mem_cons_of_mem _ hmem, heq⟩

theorem mouseScan_up_sig_shape {l : List (String × MouseConfig)}
    {sg : Signal} (h : sg ∈ mouseScan l false) :
    ∃ j, sg = Signal.mouse j Action.release := by
  induction l with
  | nil => simp [mouseScan] at h
  | cons p rest ih =>
    obtain ⟨j, c⟩ := p
    simp only [mouseScan] at h
    rcases List.mem_append.1 h with h' | h'
    · refine ⟨j, ?_⟩
      repeat' split at h'
      all_goals simp_all
    · exact ih h'

theorem on_mouse_click_other {cfg : GlobalHotkeySettings} {button : String}
    (hb : button ≠ "middle") (pressed : Bool) :
    on_mouse_click cfg button pressed = [] := by
  simp [on_mouse_click, hb]

theorem on_mouse_click_middle (cfg : GlobalHotkeySettings) (pressed : Bool) :
    on_mouse_click cfg "middle" pressed = mouseScan cfg.mouse_hotkeys pressed :=
  rfl

theorem step_mouse_state (cfg : GlobalHotkeySettings) (button : String)
    (pressed : Bool) (s : EngineState) :
    (step cfg (PEvent.mouseClick button pressed) s).1 = s := rfl

theorem run_append (cfg : GlobalHotkeySettings) (xs ys : List PEvent)
    (s : EngineState) :
    run cfg (xs ++ ys) s =
      ((run cfg ys (run cfg xs s).1).1,
       (run cfg xs s).2 ++ (run cfg ys (run cfg xs s).1).2) := by
  induction xs generalizing s with
  | nil => simp [run]
  | cons e xs ih =>
    simp only [List.cons_append, run, List.append_eq]
    rw [ih (step cfg e s).1]
    simp [List.append_assoc]

/-- C2: for every enabled HotkeyDefinition and every key-down sequence,
the engine activates the definition exactly once before any release: over
any key-down-only run the definition's id receives at most one hotkey
signal; if the final pressed set (reached by at least one key-down event)
contains all of its keys and it was not active initially, it receives
exactly one; every hotkey signal it receives carries Press in hold mode
and Toggle otherwise.  In the macOS variant, one `check_hotkeys` pass
emits exactly one signal for the definition precisely when it is enabled,
its converted key set is a subset of the test set, and its id is not yet
active. -/
theorem C2_subset_match_activates_once :
    (∀ (cfg : GlobalHotkeySettings) (i : String) (c : HotkeyConfig)
        (ks : List String) (k : String) (s : EngineState),
      (cfg.keyboard_hotkeys.map Prod.fst).Nodup →
      (i, c) ∈ cfg.keyboard_hotkeys →
      (∀ p ∈ cfg.text_snippets, "snippet:" ++ p.1 ≠ i) →
      (countHK (run cfg (ks.map PEvent.keyDown) s).2 i ≤ 1
       ∧ (i ∉ s.active_combos → c.enabled = true →
           c.keys.toFinset ⊆
             (run cfg ((ks ++ [k]).map PEvent.keyDown) s).1.pressed_keys →
           countHK (run cfg ((ks ++ [k]).map PEvent.keyDown) s).2 i = 1)
       ∧ (∀ a, Signal.hotkey i a ∈ (run cfg (ks.map PEvent.keyDown) s).2 →
           a = (if c.mode = "hold" then Action.press else Action.toggle))))
    ∧ (∀ (cfg : GlobalHotkeySettings) (i : String) (c : HotkeyConfig)
        (all_pressed active : Finset String),
      (cfg.keyboard_hotkeys.map Prod.fst).Nodup →
      (i, c) ∈ cfg.keyboard_hotkeys →
      countHK (MacOS.check_hotkeys cfg all_pressed active).2 i =
        if c.enabled = true ∧ MacOS.convert_keys_to_macos c.keys ⊆ all_pressed ∧
            i ∉ active
        then 1 else 0) := by
  constructor
  · intro cfg i c ks k s hnd hm hcol
    refine ⟨?_, ?_, ?_⟩
    · have h := run_keyDown_count_inv hnd hm hcol ks s
      by_cases h1 : i ∈ s.active_combos <;>
        by_cases h2 : i ∈ (run cfg (ks.map PEvent.keyDown) s).1.active_combos <;>
        simp only [h1, h2, if_true, if_false] at h <;> omega
    · intro h0 henab hsub
      have h := run_keyDown_count_inv hnd hm hcol (ks ++ [k]) s
      have hfin := run_keyDown_last_active hnd hm hcol henab ks k s hsub
      rw [if_pos hfin, if_neg h0] at h
      omega
    · intro a hsg
      exact run_keyDown_sig_act hnd hm ks s hsg
  · intro cfg i c all_pressed active hnd hm
    exact MacOS.check_hotkeys_countHK hnd hm all_pressed active

/-- Witness for C2 at the concrete ctrl+shift+x hold configuration. -/
theorem C2_witness :
    countHK (run cfgCSX (["ctrl", "shift", "x"].map PEvent.keyDown)
      initState).2 "hk" ≤ 1
    ∧ countHK (run cfgCSX ((["ctrl", "shift"] ++ ["x"]).map PEvent.keyDown)
      initState).2 "hk" = 1 := by
  have h := C2_subset_match_activates_once.1 cfgCSX "hk"
    ⟨["ctrl", "shift", "x"], "hold", true⟩ ["ctrl", "shift", "x"] "x" initState
    (by decide) (by decide) (by intro p hp; cases hp)
  have h2 := C2_subset_match_activates_once.1 cfgCSX "hk"
    ⟨["ctrl", "shift", "x"], "hold", true⟩ ["ctrl", "shift"] "x" initState
    (by decide) (by decide) (by intro p hp; cases hp)
  exact ⟨h.1, h2.2.1 (by decide) (by decide) (by decide)⟩

/-- C3: an enabled snippet triggers only on exact equality of the pressed
set with its key set (never on a strict superset), fires exactly once with
its id and text when equality holds and its marker is not active, and no
release-path processing ever emits a snippet signal, in both listeners. -/
theorem C3_snippet_exact_match :
    (∀ (cfg : GlobalHotkeySettings) (sid : String) (sc : SnippetConfig)
        (k : String) (s : EngineState),
      (cfg.text_snippets.map Prod.fst).Nodup →
      (sid, sc) ∈ cfg.text_snippets →
      (sc.keys.toFinset ≠ insert k s.pressed_keys →
        countSnip (on_key_press cfg k s).2 sid = 0)
      ∧ (("snippet:" ++ sid) ∉ cfg.keyboard_hotkeys.map Prod.fst →
         sc.enabled = true →
         sc.keys.toFinset = insert k s.pressed_keys →
         ("snippet:" ++ sid) ∉ s.active_combos →
         countSnip (on_key_press cfg k s).2 sid = 1
         ∧ (∀ t, Signal.snippet sid t ∈ (on_key_press cfg k s).2 →
             t = sc.text)))
    ∧ (∀ (cfg : GlobalHotkeySettings) (k : String) (s : EngineState),
        countSnipAll (on_key_release cfg k s).2 = 0)
    ∧ (∀ (cfg : GlobalHotkeySettings) (sid : String) (sc : SnippetConfig)
        (all_pressed active : Finset String),
      (cfg.text_snippets.map Prod.fst).Nodup →
      (sid, sc) ∈ cfg.text_snippets →
      (MacOS.convert_keys_to_macos sc.keys ≠ all_pressed →
        countSnip (MacOS.check_hotkeys cfg all_pressed active).2 sid = 0)
      ∧ (("snippet:" ++ sid) ∉ cfg.keyboard_hotkeys.map Prod.fst →
         sc.enabled = true →
         MacOS.convert_keys_to_macos sc.keys = all_pressed →
         ("snippet:" ++ sid) ∉ active →
         countSnip (MacOS.check_hotkeys cfg all_pressed active).2 sid = 1))
    ∧ (∀ (cfg : GlobalHotkeySettings)
        (released current active : Finset String),
        countSnipAll (MacOS.check_releases cfg released current active).2 = 0) := by
  refine ⟨?_, on_key_release_countSnipAll, ?_, MacOS.check_releases_countSnipAll⟩
  · intro cfg sid sc k s hnd hm
    constructor
    · intro hne
      unfold on_key_press
      dsimp only
      rw [countSnip, List.countP_append, ← countSnip, ← countSnip]
      rw [hotkeyDownScan_countSnip_zero, snippetDownScan_countSnip hnd hm]
      rw [if_neg (fun hh => hne hh.2.1)]
    · intro hhk henab heq hna
      constructor
      · rw [on_key_press_countSnip hnd hm hhk]
        rw [if_pos ⟨henab, heq, hna⟩]
      · intro t hsg
        exact on_key_press_snip_sig_text hnd hm k s hsg
  · intro cfg sid sc all_pressed active hnd hm
    constructor
    · intro hne
      unfold MacOS.check_hotkeys
      dsimp only
      rw [countSnip, List.countP_append, ← countSnip, ← countSnip]
      have hz : countSnip
          (MacOS.macHotkeyScan cfg.keyboard_hotkeys all_pressed active).2 sid
          = 0 := by
        rw [countSnip, List.countP_eq_zero]
        intro sg hsg
        obtain ⟨j, c', _, rfl⟩ := MacOS.macHotkeyScan_sig_shape hsg
        simp
      rw [hz, MacOS.macSnippetScan_countSnip hnd hm]
      rw [if_neg (fun hh => hne hh.2.1)]
    · intro hhk henab heq hna
      rw [MacOS.check_hotkeys_countSnip hnd hm hhk]
      rw [if_pos ⟨henab, heq, hna⟩]

/-- Witness for C3: with snippet keys `{a, b}`, pressing `a, b, c` does
not re-trigger on the superset `{a, b, c}`, and the exact press of
`{a, b}` triggers once. -/
theorem C3_witness :
    countSnip (on_key_press cfgSnip "c"
      ⟨{"a", "b"}, Finset.empty⟩).2 "sn" = 0
    ∧ countSnip (on_key_press cfgSnip "b"
      ⟨{"a"}, Finset.empty⟩).2 "sn" = 1 := by
  have h1 := (C3_snippet_exact_match.1 cfgSnip "sn" ⟨["a", "b"], "hello", true⟩
    "c" ⟨{"a", "b"}, Finset.empty⟩ (by decide) (by decide)).1 (by decide)
  have h2 := (C3_snippet_exact_match.1 cfgSnip "sn" ⟨["a", "b"], "hello", true⟩
    "b" ⟨{"a"}, Finset.empty⟩ (by decide) (by decide)).2
    (by intro hp; cases hp) (by decide) (by decide) (by decide)
  exact ⟨h1, h2.1⟩

/-- C4: a Toggle-mode definition emits exactly one Toggle and no Release
over a full press-and-release cycle: activation emits one Toggle, and any
release of a constituent key removes the id from the active set without
emitting anything, in both listeners; the concrete ctrl+t cycle emits
exactly the single Toggle signal. -/
theorem C4_toggle_once_no_release :
    (∀ (cfg : GlobalHotkeySettings) (i : String) (c : HotkeyConfig)
        (k : String) (s : EngineState),
      (cfg.keyboard_hotkeys.map Prod.fst).Nodup →
      (i, c) ∈ cfg.keyboard_hotkeys →
      (∀ p ∈ cfg.text_snippets, "snippet:" ++ p.1 ≠ i) →
      c.mode = "toggle" →
      (i ∈ s.active_combos → k ∈ c.keys →
        (i ∉ (on_key_release cfg k s).1.active_combos
         ∧ countHK (on_key_release cfg k s).2 i = 0))
      ∧ (i ∉ s.active_combos → c.enabled = true →
         c.keys.toFinset ⊆ insert k s.pressed_keys →
         (countHK (on_key_press cfg k s).2 i = 1
          ∧ ∀ a, Signal.hotkey i a ∈ (on_key_press cfg k s).2 →
              a = Action.toggle)))
    ∧ (run cfgToggle
        [PEvent.keyDown "ctrl", PEvent.keyDown "t",
         PEvent.keyUp "t", PEvent.keyUp "ctrl"] initState).2 =
      [Signal.hotkey "tg" Action.toggle]
    ∧ (∀ (cfg : GlobalHotkeySettings) (i : String) (c : HotkeyConfig)
        (released current active : Finset String),
      (cfg.keyboard_hotkeys.map Prod.fst).Nodup →
      (i, c) ∈ cfg.keyboard_hotkeys →
      c.mode = "toggle" →
      i ∈ active →
      (released ∩ MacOS.convert_keys_to_macos c.keys).Nonempty →
      (i ∉ (MacOS.check_releases cfg released current active).1
       ∧ countHK (MacOS.check_releases cfg released current active).2 i = 0)) := by
  refine ⟨?_, by decide, ?_⟩
  · intro cfg i c k s hnd hm hcol hmode
    constructor
    · intro ha hk
      have hfire : relFire c k s.pressed_keys :=
        ⟨hk, fun hmode2 => by rw [hmode] at hmode2; exact absurd hmode2 (by decide)⟩
      constructor
      · have hmem := on_key_release_active_mem hnd hm hcol k s
        simp [hmem, hfire]
      · rw [on_key_release_countHK hnd hm]
        rw [if_neg (fun hh => by
          rw [hmode] at hh
          exact absurd hh.2.2 (by decide))]
    · intro ha henab hsub
      constructor
      · rw [on_key_press_countHK hnd hm]
        rw [if_pos ⟨henab, hsub, ha⟩]
      · intro a hsg
        have := on_key_press_sig_act hnd hm k s hsg
        rw [hmode] at this
        simpa using this
  · intro cfg i c released current active hnd hm hmode ha hne
    constructor
    · exact MacOS.check_releases_removed hm released current active ha hne
    · rw [MacOS.check_releases_countHK hnd hm]
      rw [if_neg (fun hh => by
        rw [hmode] at hh
        exact absurd hh.2.2 (by decide))]

/-- C1 counterexample: in the macOS listener, with the hold-mode combo
ctrl+shift+x active and `x` still pressed, the flags-changed event that
releases the pure modifier shift emits a Release and removes the id from
the active set — the claim's modifier guard does not hold there. -/
theorem C1_counterexample :
    countRel (MacOS.macRun cfgCSX
      [MacOS.MacEvent.flagsChanged {"control"},
       MacOS.MacEvent.flagsChanged {"control", "shift"},
       MacOS.MacEvent.keyDown 7 {"control", "shift"},
       MacOS.MacEvent.flagsChanged {"control"}] MacOS.macInit).2 "hk" = 1
    ∧ "x" ∈ (MacOS.macRun cfgCSX
      [MacOS.MacEvent.flagsChanged {"control"},
       MacOS.MacEvent.flagsChanged {"control", "shift"},
       MacOS.MacEvent.keyDown 7 {"control", "shift"},
       MacOS.MacEvent.flagsChanged {"control"}] MacOS.macInit).1.pressed_keys
    ∧ "hk" ∉ (MacOS.macRun cfgCSX
      [MacOS.MacEvent.flagsChanged {"control"},
       MacOS.MacEvent.flagsChanged {"control", "shift"},
       MacOS.MacEvent.keyDown 7 {"control", "shift"},
       MacOS.MacEvent.flagsChanged {"control"}] MacOS.macInit).1.active_combos := by
  decide

/-- C1 amended: in the pynput listener, for a Hold-mode definition with
at least one non-modifier key, a release of a pure modifier of the combo
while some non-modifier key of the combo is still pressed leaves the id
active and emits no signal for it; the id is removed (with exactly one
Release emitted) precisely at a release of a non-modifier key of the
combo after which no non-modifier key of the combo remains pressed; the
concrete ctrl/shift/x sequence behaves as the claim states.  The macOS
listener instead emits a Release and removes the id at any release
meeting the combo's key set, a pure modifier included. -/
theorem C1_modifier_guard :
    (∀ (cfg : GlobalHotkeySettings) (i : String) (c : HotkeyConfig)
        (k : String) (s : EngineState),
      (cfg.keyboard_hotkeys.map Prod.fst).Nodup →
      (i, c) ∈ cfg.keyboard_hotkeys →
      (∀ p ∈ cfg.text_snippets, "snippet:" ++ p.1 ≠ i) →
      i ∈ s.active_combos →
      c.mode = "hold" →
      (k ∈ c.keys → k ∈ modifier_keys →
       (∃ y ∈ non_modifier_keys c, y ∈ s.pressed_keys) →
       (i ∈ (on_key_release cfg k s).1.active_combos
        ∧ countHK (on_key_release cfg k s).2 i = 0))
      ∧ (non_modifier_keys c ≠ [] →
         ((i ∉ (on_key_release cfg k s).1.active_combos ↔
            (k ∈ non_modifier_keys c ∧
             s.pressed_keys.erase k ∩ (non_modifier_keys c).toFinset = ∅))
          ∧ countHK (on_key_release cfg k s).2 i =
              (if k ∈ non_modifier_keys c ∧
                  s.pressed_keys.erase k ∩ (non_modifier_keys c).toFinset = ∅
               then 1 else 0))))
    ∧ ((run cfgCSX
        [PEvent.keyDown "ctrl", PEvent.keyDown "shift", PEvent.keyDown "x",
         PEvent.keyUp "shift"] initState).2 =
          [Signal.hotkey "hk" Action.press]
       ∧ (run cfgCSX
        [PEvent.keyDown "ctrl", PEvent.keyDown "shift", PEvent.keyDown "x",
         PEvent.keyUp "shift", PEvent.keyUp "x"] initState).2 =
          [Signal.hotkey "hk" Action.press, Signal.hotkey "hk" Action.release])
    ∧ (∀ (cfg : GlobalHotkeySettings) (i : String) (c : HotkeyConfig)
        (released current active : Finset String),
      (cfg.keyboard_hotkeys.map Prod.fst).Nodup →
      (i, c) ∈ cfg.keyboard_hotkeys →
      i ∈ active →
      c.mode = "hold" →
      (released ∩ MacOS.convert_keys_to_macos c.keys).Nonempty →
      (countHK (MacOS.check_releases cfg released current active).2 i = 1
       ∧ i ∉ (MacOS.check_releases cfg released current active).1)) := by
  refine ⟨?_, by decide, ?_⟩
  · intro cfg i c k s hnd hm hcol ha hmode
    have hmem := on_key_release_active_mem hnd hm hcol k s
    constructor
    · intro hk hkm hy
      obtain ⟨y, hynm, hyp⟩ := hy
      have hknm : k ∉ non_modifier_keys c := by
        intro hc
        have := (List.mem_filter.1 hc).2
        simp at this
        exact this hkm
      have hnm : non_modifier_keys c ≠ [] := by
        intro hc
        rw [hc] at hynm
        cases hynm
      have hnf : ¬ relFire c k s.pressed_keys := by
        intro hf
        rcases hf.2 hmode with hc | hc
        · exact hnm hc
        · exact hknm hc.1
      constructor
      · exact hmem.2 ⟨ha, hnf⟩
      · rw [on_key_release_countHK hnd hm]
        exact if_neg (fun hh => hnf hh.2.1)
    · intro hnm
      have hiff : (i ∉ (on_key_release cfg k s).1.active_combos ↔
          (k ∈ non_modifier_keys c ∧
           s.pressed_keys.erase k ∩ (non_modifier_keys c).toFinset = ∅)) := by
        constructor
        · intro hrem
          have hfire : relFire c k s.pressed_keys := by
            by_contra hnf
            exact hrem (hmem.2 ⟨ha, hnf⟩)
          rcases hfire.2 hmode with hc | hc
          · exact absurd hc hnm
          · exact ⟨hc.1, Finset.not_nonempty_iff_eq_empty.1 hc.2⟩
        · intro hc
          have hkkeys : k ∈ c.keys := (List.mem_filter.1 hc.1).1
          have hfire : relFire c k s.pressed_keys :=
            ⟨hkkeys, fun _ =>
              Or.inr ⟨hc.1, Finset.not_nonempty_iff_eq_empty.2 hc.2⟩⟩
          intro hmem'
          exact (hmem.1 hmem').2 hfire
      refine ⟨hiff, ?_⟩
      rw [on_key_release_countHK hnd hm]
      by_cases hc : k ∈ non_modifier_keys c ∧
          s.pressed_keys.erase k ∩ (non_modifier_keys c).toFinset = ∅
      · rw [if_pos hc]
        have hkkeys : k ∈ c.keys := (List.mem_filter.1 hc.1).1
        have hfire : relFire c k s.pressed_keys :=
          ⟨hkkeys, fun _ =>
            Or.inr ⟨hc.1, Finset.not_nonempty_iff_eq_empty.2 hc.2⟩⟩
        rw [if_pos ⟨ha, hfire, hmode⟩]
      · rw [if_neg hc]
        rw [if_neg (fun hh => ?_)]
        have hfire := hh.2.1
        rcases hfire.2 hmode with h' | h'
        · exact hnm h'
        · exact hc ⟨h'.1, Finset.not_nonempty_iff_eq_empty.1 h'.2⟩
  · intro cfg i c released current active hnd hm ha hmode hne
    constructor
    · rw [MacOS.check_releases_countHK hnd hm]
      rw [if_pos ⟨ha, hne, hmode⟩]
    · exact MacOS.check_releases_removed hm released current active ha hne

/-- Witness for C1 at the concrete ctrl+shift+x hold configuration:
releasing the pure modifier shift while `x` is pressed keeps `hk` active
and emits nothing; releasing `x` then deactivates. -/
theorem C1_witness :
    ("hk" ∈ (on_key_release cfgCSX "shift"
        ⟨{"ctrl", "shift", "x"}, {"hk"}⟩).1.active_combos
     ∧ countHK (on_key_release cfgCSX "shift"
        ⟨{"ctrl", "shift", "x"}, {"hk"}⟩).2 "hk" = 0)
    ∧ countHK (on_key_release cfgCSX "x"
        ⟨{"ctrl", "x"}, {"hk"}⟩).2 "hk" = 1 := by
  have h := C1_modifier_guard.1 cfgCSX "hk" ⟨["ctrl", "shift", "x"], "hold", true⟩
    "shift" ⟨{"ctrl", "shift", "x"}, {"hk"}⟩
    (by decide) (by decide) (by intro p hp; cases hp) (by decide) (by decide)
  have h2 := C1_modifier_guard.1 cfgCSX "hk" ⟨["ctrl", "shift", "x"], "hold", true⟩
    "x" ⟨{"ctrl", "x"}, {"hk"}⟩
    (by decide) (by decide) (by intro p hp; cases hp) (by decide) (by decide)
  refine ⟨h.1 (by decide) (by decide) ⟨"x", by decide, by decide⟩, ?_⟩
  rw [(h2.2 (by decide)).2]
  decide

/-- C5 counterexample: in the macOS listener an exception raised while
handling an event is caught and the state is left unchanged, but the
report goes to the logger — no error signal is emitted. -/
theorem C5_counterexample :
    (MacOS.event_callback cfgCSX (MacOS.MacEvent.bad "boom")
        MacOS.macInit).1 = MacOS.macInit
    ∧ countErr (MacOS.event_callback cfgCSX (MacOS.MacEvent.bad "boom")
        MacOS.macInit).2 = 0
    ∧ (MacOS.event_callback cfgCSX (MacOS.MacEvent.bad "boom")
        MacOS.macInit).2 = [Signal.logError "Event callback error: boom"] := by
  decide

/-- C5 amended: an exception while handling one event is caught and never
propagates; the state for that event is not updated and surrounding valid
events are processed exactly as if the failing event were absent.  The
pynput listener reports the exception through the error signal; the macOS
event callback writes it to the log and emits no signal. -/
theorem C5_error_isolation :
    (∀ (cfg : GlobalHotkeySettings) (m : String) (s : EngineState),
      step cfg (PEvent.badKeyDown m) s =
        (s, [Signal.error ("按键处理错误: " ++ m)])
      ∧ step cfg (PEvent.badKeyUp m) s =
        (s, [Signal.error ("按键释放处理错误: " ++ m)]))
    ∧ (∀ (cfg : GlobalHotkeySettings) (xs ys : List PEvent) (m : String)
        (s : EngineState),
      (run cfg (xs ++ PEvent.badKeyDown m :: ys) s).1 =
        (run cfg (xs ++ ys) s).1
      ∧ (run cfg (xs ++ PEvent.badKeyDown m :: ys) s).2 =
          (run cfg xs s).2 ++ Signal.error ("按键处理错误: " ++ m)
            :: (run cfg ys (run cfg xs s).1).2)
    ∧ (∀ (cfg : GlobalHotkeySettings) (m : String) (s : MacOS.MacState),
      MacOS.event_callback cfg (MacOS.MacEvent.bad m) s =
        (s, [Signal.logError ("Event callback error: " ++ m)])) := by
  refine ⟨fun cfg m s => ⟨rfl, rfl⟩, ?_, fun cfg m s => rfl⟩
  intro cfg xs ys m s
  constructor
  · rw [run_append, run_append]
    simp [run, step]
  · rw [run_append]
    simp [run, step]

/-- C6: release processing never consults the `enabled` flag: a disabled
definition that is already active keeps its entry across key-down events
(which do check `enabled`), and the eventual qualifying release still
removes the id and emits Release in hold mode, in both listeners; every
signal of the pynput release path is a Release. -/
theorem C6_disable_keeps_active :
    (∀ (cfg : GlobalHotkeySettings) (i : String) (c : HotkeyConfig)
        (k : String) (s : EngineState),
      (cfg.keyboard_hotkeys.map Prod.fst).Nodup →
      (i, c) ∈ cfg.keyboard_hotkeys →
      (∀ p ∈ cfg.text_snippets, "snippet:" ++ p.1 ≠ i) →
      c.enabled = false →
      ((countHK (on_key_press cfg k s).2 i = 0
        ∧ (i ∈ (on_key_press cfg k s).1.active_combos ↔ i ∈ s.active_combos))
       ∧ (i ∈ s.active_combos → c.mode = "hold" →
          relFire c k s.pressed_keys →
          (countHK (on_key_release cfg k s).2 i = 1
           ∧ i ∉ (on_key_release cfg k s).1.active_combos))))
    ∧ (∀ (cfg : GlobalHotkeySettings) (k : String) (s : EngineState)
        (sg : Signal), sg ∈ (on_key_release cfg k s).2 →
        ∃ j, sg = Signal.hotkey j Action.release)
    ∧ (∀ (cfg : GlobalHotkeySettings) (i : String) (c : HotkeyConfig)
        (released current active : Finset String),
      (cfg.keyboard_hotkeys.map Prod.fst).Nodup →
      (i, c) ∈ cfg.keyboard_hotkeys →
      c.enabled = false →
      i ∈ active →
      c.mode = "hold" →
      (released ∩ MacOS.convert_keys_to_macos c.keys).Nonempty →
      (countHK (MacOS.check_releases cfg released current active).2 i = 1
       ∧ i ∉ (MacOS.check_releases cfg released current active).1)) := by
  refine ⟨?_, fun cfg k s sg hsg => on_key_release_sig_shape hsg, ?_⟩
  · intro cfg i c k s hnd hm hcol henab
    constructor
    · constructor
      · rw [on_key_press_countHK hnd hm]
        rw [if_neg (fun hh => by
          rw [henab] at hh
          exact absurd hh.1 (by decide))]
      · rw [on_key_press_active_mem hnd hm hcol]
        simp [henab]
    · intro ha hmode hfire
      constructor
      · rw [on_key_release_countHK hnd hm]
        rw [if_pos ⟨ha, hfire, hmode⟩]
      · have hmem := on_key_release_active_mem hnd hm hcol k s
        simp [hmem, hfire]
  · intro cfg i c released current active hnd hm henab ha hmode hne
    constructor
    · rw [MacOS.check_releases_countHK hnd hm]
      rw [if_pos ⟨ha, hne, hmode⟩]
    · exact MacOS.check_releases_removed hm released current active ha hne

/-- Witness for C6 at the disabled ctrl+shift+x configuration: a key-down
does not activate it, and with the id already active the release of `x`
still emits exactly one Release and removes it. -/
theorem C6_witness :
    (countHK (on_key_press cfgCSXoff "x"
        ⟨{"ctrl", "shift"}, Finset.empty⟩).2 "hk" = 0
     ∧ ("hk" ∈ (on_key_press cfgCSXoff "x"
        ⟨{"ctrl", "shift"}, Finset.empty⟩).1.active_combos ↔
          "hk" ∈ (Finset.empty : Finset String)))
    ∧ countHK (on_key_release cfgCSXoff "x"
        ⟨{"ctrl", "shift", "x"}, {"hk"}⟩).2 "hk" = 1 := by
  have h := (C6_disable_keeps_active.1 cfgCSXoff "hk"
    ⟨["ctrl", "shift", "x"], "hold", false⟩ "x"
    ⟨{"ctrl", "shift"}, Finset.empty⟩
    (by decide) (by decide) (by intro p hp; cases hp) (by decide)).1
  have h2 := (C6_disable_keeps_active.1 cfgCSXoff "hk"
    ⟨["ctrl", "shift", "x"], "hold", false⟩ "x"
    ⟨{"ctrl", "shift", "x"}, {"hk"}⟩
    (by decide) (by decide) (by intro p hp; cases hp) (by decide)).2
    (by decide) (by decide) (by decide)
  exact ⟨h, h2.1⟩

/-- C7: processing a key-up consults the pre-removal pressed set — the
emitted signals are exactly those of the release guard run on the pressed
set still containing the key — and only afterwards is the key removed, so
that it is absent from the resulting pressed set; likewise in the macOS
key-up path, where `check_releases` runs before the `discard`. -/
theorem C7_release_order :
    (∀ (cfg : GlobalHotkeySettings) (k : String) (s : EngineState),
      (on_key_release cfg k s).1.pressed_keys = s.pressed_keys.erase k
      ∧ (on_key_release cfg k s).2 =
          (hotkeyReleaseScan cfg.keyboard_hotkeys k s.pressed_keys
            s.active_combos).2
      ∧ (k ∈ s.pressed_keys → k ∉ (on_key_release cfg k s).1.pressed_keys))
    ∧ (∀ (cfg : GlobalHotkeySettings) (kc : Nat) (key_name : String)
        (mods : Finset String) (s : MacOS.MacState),
      MacOS.keycode_to_name kc = some key_name →
      ((MacOS.event_callback cfg (MacOS.MacEvent.keyUp kc mods) s).1.pressed_keys =
          s.pressed_keys.erase key_name
       ∧ (MacOS.event_callback cfg (MacOS.MacEvent.keyUp kc mods) s).2 =
           (MacOS.check_releases cfg {key_name} mods s.active_combos).2)) := by
  constructor
  · intro cfg k s
    refine ⟨rfl, rfl, fun hk => ?_⟩
    rw [on_key_release_pressed]
    simp
  · intro cfg kc key_name mods s hname
    rw [MacOS.event_callback_keyUp_some hname]
    exact ⟨rfl, rfl⟩

/-- Witness for C7: releasing the pressed `x` removes it from the pressed
set in the pynput listener, and the macOS keycode 7 (`x`) key-up erases
`x`. -/
theorem C7_witness :
    "x" ∉ (on_key_release cfgCSX "x"
        ⟨{"x"}, Finset.empty⟩).1.pressed_keys
    ∧ (MacOS.event_callback cfgCSX (MacOS.MacEvent.keyUp 7 Finset.empty)
        ⟨{"x"}, Finset.empty, Finset.empty⟩).1.pressed_keys =
      ({"x"} : Finset String).erase "x" := by
  refine ⟨(C7_release_order.1 cfgCSX "x" ⟨{"x"}, Finset.empty⟩).2.2 (by decide), ?_⟩
  exact (C7_release_order.2 cfgCSX 7 "x" Finset.empty
    ⟨{"x"}, Finset.empty, Finset.empty⟩ (by decide)).1

/-- C8: for an enabled middle-button mouse definition, a middle-button
down emits exactly one signal — Press in hold mode, Toggle otherwise —
regardless of any engine state (no active-state de-duplication exists in
the mouse path); a middle-button up emits exactly one Release for hold
mode and nothing for toggle mode; any other button produces no signal at
all.  Both listeners agree. -/
theorem C8_mouse_middle :
    (∀ (cfg : GlobalHotkeySettings) (b : String) (p : Bool) (s : EngineState),
      b ≠ "middle" → step cfg (PEvent.mouseClick b p) s = (s, []))
    ∧ (∀ (cfg : GlobalHotkeySettings) (i : String) (c : MouseConfig),
      (cfg.mouse_hotkeys.map Prod.fst).Nodup →
      (i, c) ∈ cfg.mouse_hotkeys →
      c.enabled = true → c.button = "middle" →
      (countMouse (on_mouse_click cfg "middle" true) i = 1
       ∧ (∀ a, Signal.mouse i a ∈ on_mouse_click cfg "middle" true →
           a = (if c.mode = "hold" then Action.press else Action.toggle))
       ∧ countMouse (on_mouse_click cfg "middle" false) i =
           (if c.mode = "hold" then 1 else 0)
       ∧ (∀ a, Signal.mouse i a ∈ on_mouse_click cfg "middle" false →
           a = Action.release)))
    ∧ (∀ (cfg : GlobalHotkeySettings) (b : Nat) (s : MacOS.MacState),
      b ≠ 2 →
      (MacOS.event_callback cfg (MacOS.MacEvent.otherMouseDown b) s = (s, [])
       ∧ MacOS.event_callback cfg (MacOS.MacEvent.otherMouseUp b) s = (s, [])))
    ∧ (∀ (cfg : GlobalHotkeySettings) (i : String) (c : MouseConfig)
        (s : MacOS.MacState),
      (cfg.mouse_hotkeys.map Prod.fst).Nodup →
      (i, c) ∈ cfg.mouse_hotkeys →
      c.enabled = true → c.button = "middle" →
      (countMouse
          (MacOS.event_callback cfg (MacOS.MacEvent.otherMouseDown 2) s).2 i = 1
       ∧ countMouse
          (MacOS.event_callback cfg (MacOS.MacEvent.otherMouseUp 2) s).2 i =
           (if c.mode = "hold" then 1 else 0)
       ∧ (∀ a, Signal.mouse i a ∈
            (MacOS.event_callback cfg (MacOS.MacEvent.otherMouseDown 2) s).2 →
           a = (if c.mode = "hold" then Action.press else Action.toggle))
       ∧ (∀ a, Signal.mouse i a ∈
            (MacOS.event_callback cfg (MacOS.MacEvent.otherMouseUp 2) s).2 →
           a = Action.release))) := by
  refine ⟨?_, ?_, ?_, ?_⟩
  · intro cfg b p s hb
    simp only [step]
    rw [on_mouse_click_other hb]
  · intro cfg i c hnd hm henab hbtn
    refine ⟨?_, ?_, ?_, ?_⟩
    · rw [on_mouse_click_middle, mouseScan_countMouse_down hnd hm,
        if_pos ⟨henab, hbtn⟩]
    · intro a hsg
      rw [on_mouse_click_middle] at hsg
      obtain ⟨j, c', hmem, heq⟩ := mouseScan_down_sig_shape hsg
      injection heq with hj ha
      rw [← hj] at hmem
      rw [assoc_nodup_eq hnd hm hmem]
      exact ha
    · rw [on_mouse_click_middle, mouseScan_countMouse_up hnd hm]
      by_cases hmode : c.mode = "hold"
      · rw [if_pos ⟨henab, hbtn, hmode⟩, if_pos hmode]
      · rw [if_neg (fun hh => hmode hh.2.2), if_neg hmode]
    · intro a hsg
      rw [on_mouse_click_middle] at hsg
      obtain ⟨j, heq⟩ := mouseScan_up_sig_shape hsg
      injection heq with hj ha
  · intro cfg b s hb
    constructor
    · simp [MacOS.event_callback, hb]
    · simp [MacOS.event_callback, hb]
  · intro cfg i c s hnd hm henab hbtn
    have hdown : (MacOS.event_callback cfg (MacOS.MacEvent.otherMouseDown 2) s).2 =
        MacOS.macMouseDownScan cfg.mouse_hotkeys := by
      simp [MacOS.event_callback]
    have hup : (MacOS.event_callback cfg (MacOS.MacEvent.otherMouseUp 2) s).2 =
        MacOS.macMouseUpScan cfg.mouse_hotkeys := by
      simp [MacOS.event_callback]
    refine ⟨?_, ?_, ?_, ?_⟩
    · rw [hdown, MacOS.macMouseDownScan_countMouse hnd hm, if_pos ⟨henab, hbtn⟩]
    · rw [hup, MacOS.macMouseUpScan_countMouse hnd hm]
      by_cases hmode : c.mode = "hold"
      · rw [if_pos ⟨henab, hbtn, hmode⟩, if_pos hmode]
      · rw [if_neg (fun hh => hmode hh.2.2), if_neg hmode]
    · intro a hsg
      rw [hdown] at hsg
      obtain ⟨j, c', hmem, heq⟩ := MacOS.macMouseDownScan_sig_shape hsg
      injection heq with hj ha
      rw [← hj] at hmem
      rw [assoc_nodup_eq hnd hm hmem]
      exact ha
    · intro a hsg
      rw [hup] at hsg
      obtain ⟨j, heq⟩ := MacOS.macMouseUpScan_sig_shape hsg
      injection heq with hj ha

/-- Witness for C8 at the concrete middle-button configuration: one Press
for the hold definition on down, one Release on up, and no signal for the
toggle definition on up. -/
theorem C8_witness :
    countMouse (on_mouse_click cfgMouse "middle" true) "mb" = 1
    ∧ countMouse (on_mouse_click cfgMouse "middle" false) "mt" = 0
    ∧ MacOS.event_callback cfgMouse (MacOS.MacEvent.otherMouseDown 5)
        MacOS.macInit = (MacOS.macInit, []) := by
  have h := C8_mouse_middle.2.1 cfgMouse "mb" ⟨"middle", "hold", true⟩
    (by decide) (by decide) (by decide) (by decide)
  have h2 := C8_mouse_middle.2.1 cfgMouse "mt" ⟨"middle", "toggle", true⟩
    (by decide) (by decide) (by decide) (by decide)
  have h3 := (C8_mouse_middle.2.2.1 cfgMouse 5 MacOS.macInit (by decide)).1
  refine ⟨h.1, ?_, h3⟩
  rw [h2.2.2.1]
  decide

/-- C9: mouse events never touch the key state: in the pynput listener a
mouse-click step returns the state unchanged for every button and
direction, and in the macOS listener both other-mouse event branches
leave the state record (pressed set, active map and modifier cache)
untouched. -/
theorem C9_mouse_state_frame :
    (∀ (cfg : GlobalHotkeySettings) (b : String) (p : Bool) (s : EngineState),
      (step cfg (PEvent.mouseClick b p) s).1 = s)
    ∧ (∀ (cfg : GlobalHotkeySettings) (b : Nat) (s : MacOS.MacState),
      (MacOS.event_callback cfg (MacOS.MacEvent.otherMouseDown b) s).1 = s
      ∧ (MacOS.event_callback cfg (MacOS.MacEvent.otherMouseUp b) s).1 = s) :=
  ⟨fun _ _ _ _ => rfl, fun _ _ _ => ⟨rfl, rfl⟩⟩

/-- C10: a macOS key event whose virtual keycode is missing from the
keycode table is ignored entirely: the state is returned unchanged and no
signal is emitted, for key-down and key-up alike. -/
theorem C10_unknown_keycode_ignored :
    ∀ (cfg : GlobalHotkeySettings) (kc : Nat) (mods : Finset String)
      (s : MacOS.MacState),
      MacOS.keycode_to_name kc = none →
      (MacOS.event_callback cfg (MacOS.MacEvent.keyDown kc mods) s = (s, [])
       ∧ MacOS.event_callback cfg (MacOS.MacEvent.keyUp kc mods) s = (s, [])) :=
  fun cfg _ mods s hname =>
    ⟨MacOS.event_callback_keyDown_none hname cfg mods s,
     MacOS.event_callback_keyUp_none hname cfg mods s⟩

/-- Witness for C10 at keycode 10, which is absent from the table. -/
theorem C10_witness :
    MacOS.event_callback cfgCSX (MacOS.MacEvent.keyDown 10 Finset.empty)
      MacOS.macInit = (MacOS.macInit, [])
    ∧ MacOS.event_callback cfgCSX (MacOS.MacEvent.keyUp 10 Finset.empty)
      MacOS.macInit = (MacOS.macInit, []) :=
  C10_unknown_keycode_ignored cfgCSX 10 Finset.empty MacOS.macInit (by decide)

/-- Witness for C4 at the concrete ctrl+t toggle configuration. -/
theorem C4_witness :
    ("tg" ∉ (on_key_release cfgToggle "t"
        ⟨{"ctrl", "t"}, {"tg"}⟩).1.active_combos
     ∧ countHK (on_key_release cfgToggle "t"
        ⟨{"ctrl", "t"}, {"tg"}⟩).2 "tg" = 0)
    ∧ countHK (on_key_press cfgToggle "t" ⟨{"ctrl"}, Finset.empty⟩).2 "tg" = 1 := by
  have h := C4_toggle_once_no_release.1 cfgToggle "tg"
    ⟨["ctrl", "t"], "toggle", true⟩ "t" ⟨{"ctrl", "t"}, {"tg"}⟩
    (by decide) (by decide) (by intro p hp; cases hp) (by decide)
  have h2 := C4_toggle_once_no_release.1 cfgToggle "tg"
    ⟨["ctrl", "t"], "toggle", true⟩ "t" ⟨{"ctrl"}, Finset.empty⟩
    (by decide) (by decide) (by intro p hp; cases hp) (by decide)
  exact ⟨h.1 (by decide) (by decide),
    (h2.2 (by decide) (by decide) (by decide)).1⟩

end JustTalk
